import Mathlib

/-!
Verification of the Re:VIEW-to-AST parser (textlint-plugin-review).

Strings are modelled as `List Char` (`JStr`), JavaScript string operations as
explicit list functions, thrown JavaScript exceptions as `Except` errors.
Definitions follow the source files: `review-to-chunks.js` (the chunker),
`review-to-ast.js` (the chunk-to-node pipeline including the validating
`parse` entry point), `chunk-parsers.js` / `block-parsers.js` /
`inline-parsers.js` and the `parser-utils` variants (`findInlineTag`,
`parseText`, node constructors).  Node metadata fields that no claim ever
inspects (`depth`, `label`, `url`, `rubyText`) are omitted from the node
record; everything else follows the JavaScript line by line.
-/

namespace ReviewPlugin

/-- Strings of the JavaScript runtime, modelled as lists of characters. -/
abbrev JStr := List Char

/-- Convert a Lean string literal to the model representation. -/
def chars (s : String) : JStr := s.data

/-- Concatenation of a list of strings (`Array.prototype.join('')`). -/
def joinAll (l : List JStr) : JStr := l.flatten

/-- JavaScript `text.slice(a, b)` for `0 ≤ a ≤ b` (the only use in the source). -/
def jsSlice (cs : JStr) (a b : Nat) : JStr := (cs.drop a).take (b - a)

/-- JavaScript `text.substr(start, len)`. -/
def jsSubstr (cs : JStr) (start len : Nat) : JStr := (cs.drop start).take len

/-- JavaScript `text.startsWith(p)`. -/
def jsStartsWith (p cs : JStr) : Bool := decide (cs.take p.length = p)

/-- JavaScript `text.endsWith(c)` for a one-character suffix. -/
def endsWithChar (c : Char) (cs : JStr) : Bool := decide (cs.getLast? = some c)

/-- Whitespace class of JavaScript regular expressions (`\s`), restricted to
the code points that can occur in the parsed documents. -/
def jsIsSpace (c : Char) : Bool :=
  c = ' ' || c = '\t' || c = '\n' || c = '\r' || c = '\x0b' || c = '\x0c'

/-- Word-character class of JavaScript regular expressions (`\w`). -/
def isWordChar (c : Char) : Bool := c.isAlphanum || c = '_'

/-- JavaScript `String.prototype.trim()`. -/
def jsTrim (cs : JStr) : JStr :=
  ((cs.dropWhile jsIsSpace).reverse.dropWhile jsIsSpace).reverse

/-- Index of the first character at position `start` or later satisfying `p`
(`none` when there is none). -/
def findIdxFrom (p : Char → Bool) : JStr → Nat → Option Nat
  | [], _ => none
  | x :: xs, 0 => if p x then some 0 else (findIdxFrom p xs 0).map Nat.succ
  | _ :: xs, start + 1 => (findIdxFrom p xs start).map Nat.succ

/-- JavaScript `text.indexOf(c, fromIndex)` for a single character, with `-1`
modelled as `none`. -/
def indexOfFrom (c : Char) (cs : JStr) (start : Nat) : Option Nat :=
  findIdxFrom (fun x => x = c) cs start

/-- Test whether `needle` occurs in `hay` starting exactly at index `i`. -/
def subEqAt (hay : JStr) (i : Nat) (needle : JStr) : Bool :=
  decide ((hay.drop i).take needle.length = needle)

/-- JavaScript `hay.indexOf(needle, start)` for a string needle, with `-1`
modelled as `none`.  For the empty needle this returns
`min start hay.length`, as in JavaScript. -/
def indexOfStrFrom (hay needle : JStr) (start : Nat) : Option Nat :=
  go (hay.length + 1 - start) start
where
  go : Nat → Nat → Option Nat
    | 0, _ => none
    | fuel + 1, i =>
      if i ≤ hay.length then
        if needle ≠ [] ∧ ¬ (i + needle.length ≤ hay.length) then none
        else if subEqAt hay i needle then some i
        else go fuel (i + 1)
      else none

/-- Global regex replacement of the escape sequence `\c` by `c` (used for
`replace(/\\\}/g, '}')` and `replace(/\\\]/g, ']')`). -/
def unescapeChar (target : Char) : JStr → JStr
  | [] => []
  | ['\\'] => ['\\']
  | '\\' :: c :: rest =>
    if c = target then c :: unescapeChar target rest
    else '\\' :: unescapeChar target (c :: rest)
  | c :: rest => c :: unescapeChar target rest

/-! ## Line splitting

`text.match(/(?:.*\r?\n|.+$)/g)` splits a document into lines that keep
their line terminators.  `.` does not match `\n` or `\r`; the `g`-flag
match list is `none`/`null` exactly when no position matches, which for
this pattern happens exactly on inputs without any matchable line (for
example the empty string). -/

/-- Attempt the pattern `(?:.*\r?\n|.+$)` at position 0 of `cs`; on success
return the matched text and the rest of the input.  The first alternative
consumes a maximal run of non-line-terminator characters followed by `\n`
or `\r\n`; the second consumes a nonempty run reaching the end of input. -/
def matchLineAt : JStr → Option (JStr × JStr)
  | [] => none
  | c :: rest =>
    if c = '\n' then some (['\n'], rest)
    else if c = '\r' then
      if rest.head? = some '\n' then some (['\r', '\n'], rest.tail) else none
    else
      match matchLineAt rest with
      | some (m, r) => some (c :: m, r)
      | none => if rest = [] then some ([c], []) else none


/-- The `g`-flag match loop: collect matches left to right, advancing one
position past unmatchable prefixes (this matters only for pathological
inputs containing a bare `\r`).  The fuel only bounds the recursion (each
step consumes at least one character, see `matchLineAt_rest_lt`); it is
chosen large enough in `splitLines` never to run out. -/
def splitLinesGo : Nat → JStr → List JStr
  | 0, _ => []
  | fuel + 1, cs =>
    match matchLineAt cs with
    | some (m, r) => m :: splitLinesGo fuel r
    | none =>
      match cs with
      | [] => []
      | _ :: t => splitLinesGo fuel t

/-- The match list of `text.match(/(?:.*\r?\n|.+$)/g)`. -/
def splitLines (cs : JStr) : List JStr := splitLinesGo (cs.length + 1) cs

/-! ## Chunker (`review-to-chunks.js`) -/

/-- The chunk discriminants of `ChunkTypes` in `review-to-chunks.js`
(extended by `Comment`, which only the spec-modelled chunker produces). -/
inductive ChunkType where
  | Paragraph
  | Heading
  | UnorderedList
  | OrderedList
  | DefinitionList
  | Block
  | Comment
deriving DecidableEq, Repr

/-- One physical line as built in `parseAsChunks`: raw text with the line
terminator, text without it, 1-based line number, 0-based global start
offset.  `isComment` is the comment flag used by the newer chunker; the
chunker of `review-to-chunks.js` never sets it. -/
structure Line where
  raw : JStr
  text : JStr
  lineNumber : Nat
  startIndex : Nat
  isComment : Bool
deriving DecidableEq, Repr

/-- A chunk: a classified run of lines.  `raw` is assigned in the final
pass of `parseAsChunks` and is `[]` until then. -/
structure Chunk where
  type : ChunkType
  lines : List Line
  raw : JStr
deriving DecidableEq, Repr

/-- Line number of a chunk's first line (0 for the impossible empty chunk). -/
def Chunk.firstLN (c : Chunk) : Nat :=
  match c.lines.head? with
  | some l => l.lineNumber
  | none => 0

/-- Line number of a chunk's last line (0 for the impossible empty chunk). -/
def Chunk.lastLN (c : Chunk) : Nat :=
  match c.lines.getLast? with
  | some l => l.lineNumber
  | none => 0

/-- Chunker state: the chunks already pushed to the result list, split into
the closed ones and the chunk `currentChunk` still points at (which in the
JavaScript is an alias into the result array). -/
structure CState where
  finished : List Chunk
  current : Option Chunk
deriving DecidableEq, Repr

/-- All chunks pushed so far, in order. -/
def CState.chunks (st : CState) : List Chunk :=
  st.finished ++ st.current.toList

/-- The state after `flushChunk()`: the open chunk, if any, is closed. -/
def flushSt (st : CState) : CState :=
  ⟨st.finished ++ st.current.toList, none⟩

/-- `createChunk(type, firstLine)`. -/
def createChunk (t : ChunkType) (firstLine : Line) : Chunk :=
  ⟨t, [firstLine], []⟩

/-- Append a line to a chunk (`currentChunk.lines.push(line)`). -/
def Chunk.push (c : Chunk) (l : Line) : Chunk :=
  { c with lines := c.lines ++ [l] }

/-- Test for `/^\/\/\w+/`. -/
def matchBlockOpen (t : JStr) : Bool :=
  match t with
  | '/' :: '/' :: c :: _ => isWordChar c
  | _ => false

/-- Test for `/^\s+\*+\s+/`. -/
def matchUnordered (t : JStr) : Bool :=
  let ws1 := t.takeWhile jsIsSpace
  let r1 := t.drop ws1.length
  let stars := r1.takeWhile (fun c => c = '*')
  let r2 := r1.drop stars.length
  ¬ ws1.isEmpty && ¬ stars.isEmpty && (r2.head?.map jsIsSpace).getD false

/-- Test for `/^\s+\d+\.\s+/`. -/
def matchOrdered (t : JStr) : Bool :=
  let ws1 := t.takeWhile jsIsSpace
  let r1 := t.drop ws1.length
  let digits := r1.takeWhile Char.isDigit
  let r2 := r1.drop digits.length
  match r2 with
  | '.' :: r3 => ¬ ws1.isEmpty && ¬ digits.isEmpty && (r3.head?.map jsIsSpace).getD false
  | _ => false

/-- Test for `/^\s+:\s+/`. -/
def matchDefinition (t : JStr) : Bool :=
  let ws1 := t.takeWhile jsIsSpace
  let r1 := t.drop ws1.length
  match r1 with
  | ':' :: r2 => ¬ ws1.isEmpty && (r2.head?.map jsIsSpace).getD false
  | _ => false

/-- Test for `/^\s+/`. -/
def matchIndented (t : JStr) : Bool :=
  (t.head?.map jsIsSpace).getD false

/-- Is the current chunk of type `ty`? -/
def CState.currentIs (st : CState) (ty : ChunkType) : Bool :=
  match st.current with
  | some c => c.type = ty
  | none => false

/-- The branches of the chunker's `parseLine` below the block-content rule
(block open, heading, lists, continuation, blank line, paragraph). -/
def parseLineOpen (st : CState) (line : Line) : CState :=
  -- block open
  if matchBlockOpen line.text then
    let chunk := createChunk ChunkType.Block line
    if endsWithChar '\x7b' line.text then ⟨(flushSt st).finished, some chunk⟩
    else ⟨(flushSt st).finished ++ [chunk], none⟩
  -- heading
  else if jsStartsWith (chars "=") line.text then
    ⟨(flushSt st).finished ++ [createChunk ChunkType.Heading line], none⟩
  -- unordered list
  else if matchUnordered line.text then
    if st.currentIs ChunkType.UnorderedList then
      ⟨st.finished, st.current.map (·.push line)⟩
    else ⟨(flushSt st).finished, some (createChunk ChunkType.UnorderedList line)⟩
  -- ordered list
  else if matchOrdered line.text then
    if st.currentIs ChunkType.OrderedList then
      ⟨st.finished, st.current.map (·.push line)⟩
    else ⟨(flushSt st).finished, some (createChunk ChunkType.OrderedList line)⟩
  -- definition list
  else if matchDefinition line.text then
    if st.currentIs ChunkType.DefinitionList then
      ⟨st.finished, st.current.map (·.push line)⟩
    else ⟨(flushSt st).finished, some (createChunk ChunkType.DefinitionList line)⟩
  -- continuation line of definition list
  else if matchIndented line.text && st.currentIs ChunkType.DefinitionList then
    ⟨st.finished, st.current.map (·.push line)⟩
  -- empty line
  else if line.text = [] then flushSt st
  -- normal string
  else if st.currentIs ChunkType.Paragraph then
    ⟨st.finished, st.current.map (·.push line)⟩
  else ⟨(flushSt st).finished, some (createChunk ChunkType.Paragraph line)⟩

/-- One step of the chunker: `parseLine(result, line)` of
`review-to-chunks.js`, with the mutable `(result, currentChunk)` pair made
explicit as a `CState`. -/
def parseLineC (st : CState) (line : Line) : CState :=
  -- ignore comment (comment lines do not break the current chunk)
  if jsStartsWith (chars "#@") line.text then st
  else
    -- block content
    match st.current with
    | some c =>
      if c.type = ChunkType.Block then
        if jsStartsWith (chars "//\x7d") line.text then ⟨st.finished ++ [c.push line], none⟩
        else ⟨st.finished, some (c.push line)⟩
      else parseLineOpen st line
    | none => parseLineOpen st line

/-- Strip the line terminator: `currentLine.replace(/\r?\n$/, '')`. -/
def stripLineEnd (l : JStr) : JStr :=
  match l.getLast? with
  | some '\n' =>
    let l' := l.dropLast
    match l'.getLast? with
    | some '\r' => l'.dropLast
    | _ => l'
  | _ => l

/-- Build the `Line` records of `parseAsChunks`, threading `startIndex`
and the 1-based line numbers. -/
def mkLines : List JStr → Nat → Nat → List Line
  | [], _, _ => []
  | l :: rest, idx, num =>
    ⟨l, stripLineEnd l, num, idx, false⟩ :: mkLines rest (idx + l.length) (num + 1)

/-- The final pass that assigns `chunk.raw`:
`lines.slice(firstLineIndex, lastLineIndex + 1).join('')`. -/
def setChunkRaw (ls : List JStr) (c : Chunk) : Chunk :=
  { c with raw := joinAll ((ls.drop (c.firstLN - 1)).take (c.lastLN + 1 - c.firstLN)) }

/-- Runtime errors of the modelled JavaScript. -/
inductive PErr where
  /-- `text.match(...)` returned `null` and the code dereferenced it. -/
  | nullLines
  /-- A property access on `undefined` (for example `blockArgs[1].value`). -/
  | undefinedAccess
  /-- A regex match assumed to succeed returned `null`. -/
  | regexFail
  /-- A failed `assert(...)`. -/
  | assertFail
  /-- The validation traverse of `parse` found a raw/range mismatch. -/
  | validationFail
deriving DecidableEq, Repr

/-- `parseAsChunks(text)` of `review-to-chunks.js`. -/
def parseAsChunks (text : JStr) : Except PErr (List Chunk) :=
  match splitLines text with
  | [] => .error .nullLines
  | ls =>
    let lines := mkLines ls 0 1
    let st := lines.foldl parseLineC ⟨[], none⟩
    .ok (st.chunks.map (setChunkRaw ls))

/-! ## AST nodes

`mapping.js` maps Re:VIEW construct names to textlint node-type names. -/

/-- The `Syntax` mapping of `mapping.js` (plus `Comment`, used by the
newer pipeline). -/
def mappingSyn (k : String) : String :=
  match k with
  | "Document" => "Document"
  | "Heading" => "Header"
  | "Paragraph" => "Paragraph"
  | "UnorderedList" => "List"
  | "OrderedList" => "List"
  | "DefinitionList" => "List"
  | "ListItem" => "ListItem"
  | "Table" => "Table"
  | "TableCell" => "ListItem"
  | "CodeBlock" => "CodeBlock"
  | "Image" => "Image"
  | "Quote" => "BlockQuote"
  | "Str" => "Str"
  | "Break" => "Break"
  | "Code" => "Code"
  | "Href" => "Link"
  | "Keyword" => "Strong"
  | "Bouten" => "Emphasis"
  | "Amikake" => "Emphasis"
  | "Underline" => "Emphasis"
  | "Bold" => "Strong"
  | "Italic" => "Emphasis"
  | "Strong" => "Strong"
  | "Emphasis" => "Emphasis"
  | "TeletypeItalic" => "Emphasis"
  | "TeletypeBold" => "Strong"
  | "Footnote" => "Footnote"
  | "Caption" => "Caption"
  | "Lead" => "Block"
  | "ShortColumn" => "Block"
  | "Teletype" => "Inline"
  | "TateChuYoko" => "Inline"
  | "Reference" => "Reference"
  | "Ruby" => "Ruby"
  | "UnicodeChar" => "NonString"
  | "Icon" => "Image"
  | "Math" => "NonString"
  | "Raw" => "NonString"
  | "Comment" => "Comment"
  | other => other

/-- The key of `ChunkTypes` for a chunk discriminant. -/
def chunkTypeName : ChunkType → String
  | .Paragraph => "Paragraph"
  | .Heading => "Heading"
  | .UnorderedList => "UnorderedList"
  | .OrderedList => "OrderedList"
  | .DefinitionList => "DefinitionList"
  | .Block => "Block"
  | .Comment => "Comment"

/-- A TxtNode: type tag, raw text, range `[rstart, rstop)`, loc
(start line/column, end line/column), optional `value` (Str and Code
nodes) and children.  Metadata fields no claim inspects (`depth`,
`label`, `url`, `rubyText`) are omitted. -/
inductive TxtNode where
  | mk (type : String) (raw : JStr) (rstart rstop : Nat)
       (sline scol eline ecol : Nat)
       (value : Option JStr) (children : List TxtNode)

/-- Type tag of a node. -/
def TxtNode.type : TxtNode → String
  | .mk t _ _ _ _ _ _ _ _ _ => t

/-- Raw text of a node. -/
def TxtNode.raw : TxtNode → JStr
  | .mk _ r _ _ _ _ _ _ _ _ => r

/-- Start offset of a node's range. -/
def TxtNode.rstart : TxtNode → Nat
  | .mk _ _ a _ _ _ _ _ _ _ => a

/-- End offset of a node's range. -/
def TxtNode.rstop : TxtNode → Nat
  | .mk _ _ _ b _ _ _ _ _ _ => b

/-- Start line of a node's loc. -/
def TxtNode.sline : TxtNode → Nat
  | .mk _ _ _ _ l _ _ _ _ _ => l

/-- Start column of a node's loc. -/
def TxtNode.scol : TxtNode → Nat
  | .mk _ _ _ _ _ c _ _ _ _ => c

/-- End line of a node's loc. -/
def TxtNode.eline : TxtNode → Nat
  | .mk _ _ _ _ _ _ l _ _ _ => l

/-- End column of a node's loc. -/
def TxtNode.ecol : TxtNode → Nat
  | .mk _ _ _ _ _ _ _ c _ _ => c

/-- Value of a node (`none` when the JavaScript object has no `value`). -/
def TxtNode.value : TxtNode → Option JStr
  | .mk _ _ _ _ _ _ _ _ v _ => v

/-- Children of a node (`[]` when the JavaScript object has no `children`). -/
def TxtNode.children : TxtNode → List TxtNode
  | .mk _ _ _ _ _ _ _ _ _ cs => cs

/-- Replace the children of a node (`node.children = ...`). -/
def TxtNode.withChildren : TxtNode → List TxtNode → TxtNode
  | .mk t r a b l1 c1 l2 c2 v _, cs => .mk t r a b l1 c1 l2 c2 v cs

/-- Set the value of a node (`node.value = ...`). -/
def TxtNode.withValue : TxtNode → JStr → TxtNode
  | .mk t r a b l1 c1 l2 c2 _ cs, v => .mk t r a b l1 c1 l2 c2 (some v) cs

mutual

/-- A node together with all its descendants, in depth-first order (the
order `traverse` of txt-ast-traverse visits them in). -/
def nodesIn : TxtNode → List TxtNode
  | .mk t r a b l1 c1 l2 c2 v cs => .mk t r a b l1 c1 l2 c2 v cs :: nodesInList cs

/-- All nodes in a forest, depth first. -/
def nodesInList : List TxtNode → List TxtNode
  | [] => []
  | n :: rest => nodesIn n ++ nodesInList rest

end

/-! ## AST builder of `review-to-ast.js` (pipeline A)

This file contains its own `ChunkParsers`, `BlockParsers`, `parseArgs`,
`parseBlockArg`, `parseText` and node constructors; all definitions below
carry an `A` suffix to distinguish them from the `chunk-parsers.js` /
`inline-parsers.js` generation modelled later. -/

/-- `createNode(type, text, startIndex, lineNumber, startColumn)` of
`review-to-ast.js`. -/
def createNodeA (type : String) (text : JStr) (startIndex lineNumber startColumn : Nat) :
    TxtNode :=
  .mk type text startIndex (startIndex + text.length)
    lineNumber startColumn lineNumber (startColumn + text.length) none []

/-- Fallback line used to model a JavaScript `chunk.lines[0]` access; the
chunker never produces a chunk with no lines, so it is never reached. -/
def dummyLine : Line := ⟨[], [], 0, 0, false⟩

/-- `createNodeFromChunk(chunk, type)` of `review-to-ast.js`: the node
spans the chunk's `raw` starting at its first line. -/
def createNodeFromChunkA (chunk : Chunk) (type : String) : TxtNode :=
  let firstLine := chunk.lines.head?.getD dummyLine
  createNodeA type chunk.raw firstLine.startIndex firstLine.lineNumber 0

/-- `createNodeFromLine(line, type)` of `review-to-ast.js`. -/
def createNodeFromLineA (line : Line) (type : String) : TxtNode :=
  createNodeA type line.text line.startIndex line.lineNumber 0

/-! ### The inline-tag regex of pipeline A

`parseText` of `review-to-ast.js` repeatedly matches
`/@<(\w+)>\{(.*?)\}/`: an opener `@<name>{` followed by the lazily
matched content up to the first `}` (escapes are not honored by this
generation of the code). -/

/-- Match the opener `@<(\w+)>\{` at position 0, returning the tag name. -/
def matchOpenerName (cs : JStr) : Option JStr :=
  if cs.take 2 = chars "@<" then
    let rest := cs.drop 2
    let name := rest.takeWhile isWordChar
    if name.isEmpty then none
    else if (rest.drop name.length).take 2 = chars ">\x7b" then some name
    else none
  else none

/-- Position and name of the first inline-tag opener (`match.index` and
`match[1]` of the opener part of the regex). -/
def findOpener : JStr → Option (Nat × JStr)
  | [] => none
  | c :: rest =>
    match matchOpenerName (c :: rest) with
    | some name => some (0, name)
    | none => (findOpener rest).map (fun p => (p.1 + 1, p.2))

/-- First match of `/@<(\w+)>\{(.*?)\}/`: match index, tag name, content.
The lazy group stops at the first `}` after the opener; if there is no
`}` after the first opener there is no match at all (any later opener
would also lack a closing brace). -/
def findTagA (cs : JStr) : Option (Nat × JStr × JStr) :=
  (findOpener cs).bind (fun mn =>
    (indexOfFrom '\x7d' cs (mn.1 + mn.2.length + 4)).map (fun ci =>
      (mn.1, mn.2, jsSubstr cs (mn.1 + mn.2.length + 4) (ci - (mn.1 + mn.2.length + 4)))))


/-- JavaScript `content.split(/,/, 2)`. -/
def splitComma2 (cs : JStr) : List JStr :=
  match indexOfFrom ',' cs 0 with
  | none => [cs]
  | some i =>
    let j := match indexOfFrom ',' cs (i + 1) with
             | some j => j
             | none => cs.length
    [cs.take i, jsSubstr cs (i + 1) (j - (i + 1))]

/-- `parseText(text, startIndex, lineNumber, startColumn)` of
`review-to-ast.js`: the regex-rescanning inline parser of pipeline A.
Every iteration consumes the full matched tag text, which is nonempty,
so `text.length + 1` units of fuel always suffice (`findTagA_bounds`). -/
def parseTextAGo : Nat → JStr → Nat → Nat → Nat → Except PErr (List TxtNode)
  | 0, _, _, _, _ => .ok []
  | fuel + 1, text, startIndex, lineNumber, startColumn =>
  match findTagA text with
  | none =>
    -- no further tag: the remaining text becomes a final Str node
    if text.length ≠ 0 then
      .ok [createNodeA "Str" text startIndex lineNumber startColumn]
    else .ok []
  | some (mi, name, content) => do
    let fullLen := name.length + 4 + content.length + 1
    let full := jsSubstr text mi fullLen
    -- text before the tag becomes a Str node
    let preNodes :=
      if mi > 0 then [createNodeA "Str" (text.take mi) startIndex lineNumber startColumn]
      else []
    let si := startIndex + mi
    let sc := startColumn + mi
    let tagNodes ←
      if name = chars "code" then
        pure [createNodeA (mappingSyn "Code") full si lineNumber sc]
      else if name = chars "href" then do
        let pieces := splitComma2 content
        let url := pieces.headD []
        let label := if pieces.length = 2 then pieces.getD 1 [] else url
        match indexOfStrFrom full label 0 with
        | none => .error .assertFail
        | some labelOffset =>
          let linkNode := createNodeA (mappingSyn "Link") full si lineNumber sc
          let strNode := createNodeA "Str" label (si + labelOffset) lineNumber (sc + labelOffset)
          pure [linkNode.withChildren [strNode]]
      else if name = chars "br" then
        pure [createNodeA (mappingSyn "Break") full si lineNumber sc]
      else if name = chars "img" ∨ name = chars "list" ∨ name = chars "hd" ∨
              name = chars "table" ∨ name = chars "fn" then
        pure []
      else
        let offset := name.length + 4
        pure [createNodeA "Str" content (si + offset) lineNumber (sc + offset)]
    let rest ← parseTextAGo fuel (text.drop (mi + fullLen)) (si + fullLen) lineNumber
      (sc + fullLen)
    pure (preNodes ++ tagNodes ++ rest)

/-- The inline parser of pipeline A. -/
def parseTextA (text : JStr) (startIndex lineNumber startColumn : Nat) :
    Except PErr (List TxtNode) :=
  parseTextAGo (text.length + 1) text startIndex lineNumber startColumn

/-! ### Block arguments and block builders of pipeline A -/

/-- A parsed bracket argument of a block line: value and start column. -/
structure Arg where
  value : JStr
  startColumn : Nat
deriving DecidableEq, Repr

/-- The exec loop over `/\[(.*?)\]/g`: collect bracket groups, where each
group runs from a `[` to the first following `]` (escapes are not
honored by this regex). -/
def parseArgsA (cs : JStr) (offset : Nat) : List Arg :=
  go (cs.length + 1) 0
where
  go : Nat → Nat → List Arg
    | 0, _ => []
    | fuel + 1, p =>
      match indexOfFrom '[' cs p with
      | none => []
      | some i =>
        match indexOfFrom ']' cs (i + 1) with
        | none => []
        | some j =>
          ⟨jsSubstr cs (i + 1) (j - (i + 1)), offset + i + 1⟩ :: go fuel (j + 1)

/-- `parseBlockArg(type, blockArg, line)` of `review-to-ast.js`: `none`
for an empty argument value, an inline-parsed node otherwise.  An absent
argument (`blockArgs[i]` = `undefined`) makes the JavaScript throw on the
`.value` access. -/
def parseBlockArgA (type : String) (blockArg : Option Arg) (line : Line) :
    Except PErr (Option TxtNode) :=
  match blockArg with
  | none => .error .undefinedAccess
  | some arg =>
    if arg.value = [] then .ok none
    else do
      let startColumn := arg.startColumn
      let node := createNodeA type arg.value (line.startIndex + startColumn)
        line.lineNumber startColumn
      let children ← parseTextA arg.value (line.startIndex + startColumn)
        line.lineNumber startColumn
      .ok (some (node.withChildren children))

/-- Maximal runs of non-tab characters with their start indices (the exec
loop over `/[^\t]+/g` in `parseTableContent`).  Each step consumes at
least one character, so `cs.length + 1` units of fuel suffice. -/
def tabRunsGo : Nat → JStr → Nat → List (Nat × JStr)
  | 0, _, _ => []
  | fuel + 1, cs, i =>
    match cs with
    | [] => []
    | c :: rest =>
      if c = '\t' then tabRunsGo fuel rest (i + 1)
      else
        let run := rest.takeWhile (fun x => ¬ x = '\t')
        (i, c :: run) :: tabRunsGo fuel (rest.drop run.length) (i + 1 + run.length)

/-- The cell runs of a table row. -/
def tabRuns (cs : JStr) (i : Nat) : List (Nat × JStr) :=
  tabRunsGo (cs.length + 1) cs i

/-- The interior lines of a block chunk:
`chunk.lines.slice(1, chunk.lines.length - 1)`. -/
def interiorLines (c : Chunk) : List Line :=
  (c.lines.drop 1).take (c.lines.length - 1 - 1)

/-- `parseTableContent(line)` of `review-to-ast.js`: split a table row on
tabs into ListItem cells, stripping a leading `.` placeholder and
skipping a row of only dashes. -/
def parseTableContentA (line : Line) : Except PErr (List TxtNode) :=
  if line.text ≠ [] ∧ line.text.all (fun c => c = '-') then .ok []
  else
    (tabRuns line.text 0).foldlM (fun acc (cell : Nat × JStr) => do
      let startColumn := cell.1
      let cellContent := cell.2
      let (cellContent, startColumn) :=
        if jsStartsWith (chars ".") cellContent then (cellContent.drop 1, startColumn + 1)
        else (cellContent, startColumn)
      if cellContent = [] then pure acc
      else do
        let cellNode := createNodeA (mappingSyn "TableCell") cellContent
          (line.startIndex + startColumn) line.lineNumber startColumn
        let children ← parseTextA cellContent (line.startIndex + startColumn)
          line.lineNumber startColumn
        pure (acc ++ [cellNode.withChildren children])) []

/-- `parseTable(blockName, blockArgs, chunk)` of `review-to-ast.js`. -/
def parseTableA (blockArgs : List Arg) (chunk : Chunk) : Except PErr TxtNode := do
  let node := createNodeFromChunkA chunk (mappingSyn "Table")
  let caption ← parseBlockArgA (mappingSyn "Caption") (blockArgs.get? 1)
    (chunk.lines.head?.getD dummyLine)
  let rows ← (interiorLines chunk).foldlM
    (fun acc line => do pure (acc ++ (← parseTableContentA line))) []
  pure (node.withChildren (caption.toList ++ rows))

/-- `parseFootnote(blockName, blockArgs, chunk)` of `review-to-ast.js`. -/
def parseFootnoteA (blockArgs : List Arg) (chunk : Chunk) : Except PErr TxtNode := do
  let node := createNodeFromChunkA chunk (mappingSyn "Footnote")
  let para ← parseBlockArgA (mappingSyn "Paragraph") (blockArgs.get? 1)
    (chunk.lines.head?.getD dummyLine)
  match para with
  | some p => pure (node.withChildren [p])
  | none => pure node

/-- `parseCodeBlock(captionIndex, blockName, blockArgs, chunk)` of
`review-to-ast.js`.  The `captionIndex` parameter is unused by the
source, which always reads `blockArgs[1]`. -/
def parseCodeBlockA (captionIndex : Option Nat) (blockArgs : List Arg) (chunk : Chunk) :
    Except PErr TxtNode := do
  let _ := captionIndex
  let node := createNodeFromChunkA chunk (mappingSyn "CodeBlock")
  let caption ← parseBlockArgA (mappingSyn "Caption") (blockArgs.get? 1)
    (chunk.lines.head?.getD dummyLine)
  match caption with
  | some c => pure (node.withChildren [c])
  | none => pure node

/-- `parseImage(blockName, blockArgs, chunk)` of `review-to-ast.js`. -/
def parseImageA (blockArgs : List Arg) (chunk : Chunk) : Except PErr TxtNode := do
  let node := createNodeFromChunkA chunk (mappingSyn "Image")
  let caption ← parseBlockArgA (mappingSyn "Caption") (blockArgs.get? 1)
    (chunk.lines.head?.getD dummyLine)
  match caption with
  | some c => pure (node.withChildren [c])
  | none => pure node

/-- The keys and dispatch targets of `BlockParsers` in `review-to-ast.js`. -/
inductive BlockParserA where
  | table
  | footnote
  | codeBlock (captionIndex : Option Nat)
  | image
deriving DecidableEq, Repr

/-- Lookup in `BlockParsers` of `review-to-ast.js`. -/
def blockParsersA (name : JStr) : Option BlockParserA :=
  if name = chars "table" then some .table
  else if name = chars "footnote" then some .footnote
  else if name = chars "list" then some (.codeBlock (some 1))
  else if name = chars "listnum" then some (.codeBlock (some 1))
  else if name = chars "emlist" then some (.codeBlock (some 0))
  else if name = chars "emlistnum" then some (.codeBlock (some 0))
  else if name = chars "source" then some (.codeBlock none)
  else if name = chars "image" then some .image
  else none

/-- Apply a `BlockParsers` entry of `review-to-ast.js`. -/
def runBlockParserA (bp : BlockParserA) (blockArgs : List Arg) (chunk : Chunk) :
    Except PErr TxtNode :=
  match bp with
  | .table => parseTableA blockArgs chunk
  | .footnote => parseFootnoteA blockArgs chunk
  | .codeBlock ci => parseCodeBlockA ci blockArgs chunk
  | .image => parseImageA blockArgs chunk

/-- Name captured by `/^\/\/(\w+)(.*)\{?$/` (the run of word characters
after the two slashes). -/
def blockNameOf (t : JStr) : JStr := (t.drop 2).takeWhile isWordChar

/-- `parseBlock(chunk)` of `review-to-ast.js`: split the first line into
block name and argument text, then dispatch; unknown block names yield
`null`.  The greedy `(.*)` of the regex takes everything after the name
(including a trailing `{`), since `\{?` can match empty. -/
def parseBlockA (chunk : Chunk) : Except PErr (Option TxtNode) :=
  let line := chunk.lines.head?.getD dummyLine
  if matchBlockOpen line.text then
    let blockName := blockNameOf line.text
    let argsText := line.text.drop (2 + blockName.length)
    let blockArgs := parseArgsA argsText (2 + blockName.length)
    match blockParsersA blockName with
    | none => .ok none
    | some bp => (runBlockParserA bp blockArgs chunk).map some
  else .error .regexFail

/-! ### Heading, list and paragraph builders of pipeline A -/

/-- Match of `/(=+)\S*\s*(.*)/` in `parseHeading`: the first `=`-run, a
run of non-space characters, a run of spaces, then the rest. -/
def headingMatch (t : JStr) : Option (Nat × JStr) :=
  (indexOfFrom '=' t 0).map (fun i =>
    let eqRun := (t.drop i).takeWhile (fun c => c = '=')
    let r1 := t.drop (i + eqRun.length)
    let nonSpace := r1.takeWhile (fun c => ¬ jsIsSpace c)
    let r2 := r1.drop nonSpace.length
    let ws := r2.takeWhile jsIsSpace
    (eqRun.length, r2.drop ws.length))

/-- `parseHeading(chunk)` of `review-to-ast.js`. -/
def parseHeadingA (chunk : Chunk) : Except PErr TxtNode := do
  let line := chunk.lines.head?.getD dummyLine
  match headingMatch line.text with
  | none => .error .regexFail
  | some (_, rest) =>
    let label := jsTrim rest
    match indexOfStrFrom line.text label 0 with
    | none => .error .assertFail
    | some labelOffset =>
      let strNode := createNodeA "Str" label (line.startIndex + labelOffset)
        line.lineNumber labelOffset
      let heading := createNodeFromLineA line (mappingSyn "Heading")
      pure (heading.withChildren [strNode])

/-- Matched length of `/^\s+\*+\s+/` (`none` if the regex fails). -/
def ulLen (t : JStr) : Option Nat :=
  let ws1 := t.takeWhile jsIsSpace
  let r1 := t.drop ws1.length
  let stars := r1.takeWhile (fun c => c = '*')
  let r2 := r1.drop stars.length
  let ws2 := r2.takeWhile jsIsSpace
  if ws1 ≠ [] ∧ stars ≠ [] ∧ ws2 ≠ [] then some (ws1.length + stars.length + ws2.length)
  else none

/-- Matched length of `/^\s+\d+\.\s+/` (`none` if the regex fails). -/
def olLen (t : JStr) : Option Nat :=
  let ws1 := t.takeWhile jsIsSpace
  let r1 := t.drop ws1.length
  let digits := r1.takeWhile Char.isDigit
  let r2 := r1.drop digits.length
  match r2 with
  | '.' :: r3 =>
    let ws2 := r3.takeWhile jsIsSpace
    if ws1 ≠ [] ∧ digits ≠ [] ∧ ws2 ≠ [] then
      some (ws1.length + digits.length + 1 + ws2.length)
    else none
  | _ => none

/-- Matched length of `/^(\s+:\s+|\s+)/` (`none` if the regex fails). -/
def dlLen (t : JStr) : Option Nat :=
  let ws1 := t.takeWhile jsIsSpace
  let r1 := t.drop ws1.length
  let alt1 : Option Nat :=
    match r1 with
    | ':' :: r2 =>
      let ws2 := r2.takeWhile jsIsSpace
      if ws1 ≠ [] ∧ ws2 ≠ [] then some (ws1.length + 1 + ws2.length) else none
    | _ => none
  match alt1 with
  | some n => some n
  | none => if ws1 ≠ [] then some ws1.length else none

/-- The three list-prefix regexes used by `ChunkParsers`. -/
inductive ListKind where
  | unordered
  | ordered
  | definition
deriving DecidableEq, Repr

/-- `line.text.replace(prefixRegex, '')`: strip the first match of the
list prefix, when there is one. -/
def stripListItem (k : ListKind) (t : JStr) : JStr :=
  match (match k with
         | .unordered => ulLen t
         | .ordered => olLen t
         | .definition => dlLen t) with
  | some n => t.drop n
  | none => t

/-- `parseList(prefixRegex, chunk)` of `review-to-ast.js`. -/
def parseListA (k : ListKind) (chunk : Chunk) : Except PErr TxtNode := do
  let node := createNodeFromChunkA chunk (mappingSyn (chunkTypeName chunk.type))
  let children ← chunk.lines.foldlM (fun acc line => do
    let itemNode := createNodeFromLineA line (mappingSyn "ListItem")
    let itemText := stripListItem k line.text
    let startColumn := line.text.length - itemText.length
    let inner ← parseTextA itemText (line.startIndex + startColumn)
      line.lineNumber startColumn
    pure (acc ++ [itemNode.withChildren inner])) []
  pure (node.withChildren children)

/-- `parseParagraph(chunk)` of `review-to-ast.js`. -/
def parseParagraphA (chunk : Chunk) : Except PErr TxtNode := do
  let node := createNodeFromChunkA chunk (mappingSyn (chunkTypeName chunk.type))
  let children ← chunk.lines.foldlM (fun acc line => do
    let inner ← parseTextA line.text line.startIndex line.lineNumber 0
    pure (acc ++ inner)) []
  pure (node.withChildren children)

/-- `ChunkParsers[chunk.type](chunk)` of `review-to-ast.js`.  A `Comment`
chunk never reaches pipeline A (its chunker produces none, and this
generation's `ChunkParsers` has no such key, so the JavaScript would
throw). -/
def chunkParseA (chunk : Chunk) : Except PErr (Option TxtNode) :=
  match chunk.type with
  | .Paragraph => (parseParagraphA chunk).map some
  | .Heading => (parseHeadingA chunk).map some
  | .UnorderedList => (parseListA .unordered chunk).map some
  | .OrderedList => (parseListA .ordered chunk).map some
  | .DefinitionList => (parseListA .definition chunk).map some
  | .Block => parseBlockA chunk
  | .Comment => .error .undefinedAccess

/-- `parseDocument(text)` of `review-to-ast.js`: chunk the text, build a
node per chunk dropping the `null` results, and wrap the forest in a
Document node whose end position comes from the last chunk's last line
(which throws when there is no chunk at all). -/
def parseDocumentA (text : JStr) : Except PErr TxtNode := do
  let chunks ← parseAsChunks text
  let nodes ← chunks.foldlM (fun acc c => do
    let n? ← chunkParseA c
    pure (acc ++ n?.toList)) []
  match chunks.getLast? with
  | none => .error .undefinedAccess
  | some lastChunk =>
    match lastChunk.lines.getLast? with
    | none => .error .undefinedAccess
    | some lastLine =>
      pure (.mk "Document" text 0 text.length 1 0 lastLine.lineNumber lastLine.text.length
        none nodes)

/-- Does a node satisfy the consistency check of the validation walk in
`parse`? -/
def validNode (text : JStr) (n : TxtNode) : Bool :=
  n.type = "Document" || decide (n.raw = jsSlice text n.rstart n.rstop)

/-- The validation traverse of `parse` in `review-to-ast.js`: visit every
node and check `raw === text.slice(range[0], range[1])` for every
non-Document node. -/
def validateAst (text : JStr) (ast : TxtNode) : Bool :=
  (nodesIn ast).all (validNode text)

/-- `parse(text)` of `review-to-ast.js`: build the tree, then run the
validation traverse, rethrowing on any mismatch; only a fully validated
tree is returned. -/
def parseA (text : JStr) : Except PErr TxtNode := do
  let ast ← parseDocumentA text
  if validateAst text ast then pure ast else .error .validationFail

/-! ## Pipeline B: `parser-utils` / `inline-parsers.js` / `chunk-parsers.js`

The newer generation of the AST builder threads a `Context` record
through the inline parser and locates inline tags with `findInlineTag`,
which skips escaped closing braces. -/

/-- The `Context` record of `parser-utils`: absolute start offset, line
number, start column, and the unescape flags set by
`contextNeedsUnescapeBraces` / `contextNeedsUnescapeBrackets`. -/
structure Context where
  startIndex : Nat
  lineNumber : Nat
  startColumn : Nat
  unescapeBraces : Bool
  unescapeBrackets : Bool
deriving DecidableEq, Repr

/-- `contextFromLine(line, offset)`. -/
def contextFromLine (line : Line) (offset : Nat) : Context :=
  ⟨line.startIndex + offset, line.lineNumber, offset, false, false⟩

/-- `offsetContext(context, offset)`. -/
def offsetContext (ctx : Context) (offset : Nat) : Context :=
  { ctx with startIndex := ctx.startIndex + offset, startColumn := ctx.startColumn + offset }

/-- `contextNeedsUnescapeBraces(context)`. -/
def contextNeedsUnescapeBraces (ctx : Context) : Context :=
  { ctx with unescapeBraces := true }

/-- Modelled from the spec: `contextNeedsUnescapeBrackets`, defined in the
latest `parser-utils.js` which is missing from the source tree (it is
called by `parseBlockArg` for footnote bodies, where the spec requires
escaped `]` to be unescaped within that body); by symmetry with
`contextNeedsUnescapeBraces` it sets the brackets flag. -/
def contextNeedsUnescapeBrackets (ctx : Context) : Context :=
  { ctx with unescapeBrackets := true }

/-- `createInlineNode(type, raw, context)` of `parser-utils`. -/
def createInlineNodeB (type : String) (raw : JStr) (ctx : Context) : TxtNode :=
  .mk type raw ctx.startIndex (ctx.startIndex + raw.length)
    ctx.lineNumber ctx.startColumn ctx.lineNumber (ctx.startColumn + raw.length) none []

/-- `createStrNode(raw, context)` of `parser-utils`: the node's `value`
is `raw` with `\}` unescaped when the context demands it, then `\]`
unescaped when the context demands it. -/
def createStrNode (raw : JStr) (ctx : Context) : TxtNode :=
  let value := raw
  let value := if ctx.unescapeBraces then unescapeChar '\x7d' value else value
  let value := if ctx.unescapeBrackets then unescapeChar ']' value else value
  (createInlineNodeB "Str" raw ctx).withValue value

/-- Modelled from the spec: `unescapeValue(raw, context)` of the missing
latest `parser-utils.js`, used by the code-tag parser whose node `value`
is the unescaped content; it applies the same flag-driven unescaping as
`createStrNode`. -/
def unescapeValue (raw : JStr) (ctx : Context) : JStr :=
  let value := raw
  let value := if ctx.unescapeBraces then unescapeChar '\x7d' value else value
  if ctx.unescapeBrackets then unescapeChar ']' value else value

/-- Modelled from the spec: `createCommentNodeFromLine(line)` of the
missing latest `parser-utils.js`; a comment-flagged line yields a single
Comment leaf node spanning the line. -/
def createCommentNodeFromLine (line : Line) : TxtNode :=
  createInlineNodeB (mappingSyn "Comment") line.text (contextFromLine line 0)

/-- The transient `Tag` record returned by `findInlineTag`. -/
structure Tag where
  name : JStr
  contentRaw : JStr
  contentIndex : Nat
  fullText : JStr
  precedingText : JStr
  followingText : JStr
deriving DecidableEq, Repr

/-- The `indexOf`-based scan of `findInlineTag`: find the first `}` at
`fromIndex` or later whose preceding character is not a backslash,
skipping over escaped `\}` occurrences.  Each iteration moves the search
index past the found brace, so `cs.length + 1` units of fuel always
suffice. -/
def scanCloseGo : Nat → JStr → Nat → Option Nat
  | 0, _, _ => none
  | fuel + 1, cs, fromIndex =>
    match indexOfFrom '\x7d' cs fromIndex with
    | none => none
    | some ci =>
      if ci = 0 then some ci
      else if cs[ci - 1]? = some '\\' then scanCloseGo fuel cs (ci + 1)
      else some ci

/-- The escaped-brace-skipping close scan of `findInlineTag`. -/
def scanClose (cs : JStr) (fromIndex : Nat) : Option Nat :=
  scanCloseGo (cs.length + 1) cs fromIndex


/-- `findInlineTag(text)` of `parser-utils`: locate the first inline-tag
opener, then scan for the first unescaped `}`; with no opener or no
unescaped closing brace the text holds no inline tag. -/
def findInlineTag (cs : JStr) : Option Tag :=
  (findOpener cs).bind (fun mn =>
    let contentStart := mn.1 + mn.2.length + 4
    (scanClose cs contentStart).map (fun ci =>
      { name := mn.2
        contentRaw := jsSubstr cs contentStart (ci - contentStart)
        contentIndex := contentStart - mn.1
        fullText := jsSubstr cs mn.1 (ci - mn.1 + 1)
        precedingText := cs.take mn.1
        followingText := cs.drop (ci + 1) }))


/-- JavaScript `content.split(/\s*,\s*/, 2)`: split on the first one or
two comma separators together with the surrounding whitespace. -/
def splitCommaSpace2 (cs : JStr) : List JStr :=
  match indexOfFrom ',' cs 0 with
  | none => [cs]
  | some c1 =>
    let wsBefore := ((cs.take c1).reverse.takeWhile jsIsSpace).length
    let piece0 := cs.take (c1 - wsBefore)
    let afterComma := cs.drop (c1 + 1)
    let rest := afterComma.drop (afterComma.takeWhile jsIsSpace).length
    match indexOfFrom ',' rest 0 with
    | none => [piece0, rest]
    | some c2 =>
      let wsBefore2 := ((rest.take c2).reverse.takeWhile jsIsSpace).length
      [piece0, rest.take (c2 - wsBefore2)]

/-- The dispatch targets of `InlineParsers` in `inline-parsers.js`. -/
inductive InlineParserKind where
  | textTag (type : String)
  | ruby
  | href
  | code
  | nonText (type : String)
deriving DecidableEq, Repr

/-- Lookup in `InlineParsers` of `inline-parsers.js`. -/
def InlineParsersB (name : JStr) : Option InlineParserKind :=
  if name = chars "kw" then some (.textTag (mappingSyn "Keyword"))
  else if name = chars "bou" then some (.textTag (mappingSyn "Bouten"))
  else if name = chars "ami" then some (.textTag (mappingSyn "Amikake"))
  else if name = chars "u" then some (.textTag (mappingSyn "Underline"))
  else if name = chars "b" then some (.textTag (mappingSyn "Bold"))
  else if name = chars "i" then some (.textTag (mappingSyn "Italic"))
  else if name = chars "strong" then some (.textTag (mappingSyn "Strong"))
  else if name = chars "em" then some (.textTag (mappingSyn "Emphasis"))
  else if name = chars "tt" then some (.textTag (mappingSyn "Teletype"))
  else if name = chars "tti" then some (.textTag (mappingSyn "TeletypeItalic"))
  else if name = chars "ttb" then some (.textTag (mappingSyn "TeletypeBold"))
  else if name = chars "tcy" then some (.textTag (mappingSyn "TateChuYoko"))
  else if name = chars "ruby" then some .ruby
  else if name = chars "href" then some .href
  else if name = chars "chap" then some (.nonText (mappingSyn "Reference"))
  else if name = chars "title" then some (.nonText (mappingSyn "Reference"))
  else if name = chars "chapref" then some (.nonText (mappingSyn "Reference"))
  else if name = chars "list" then some (.nonText (mappingSyn "Reference"))
  else if name = chars "img" then some (.nonText (mappingSyn "Reference"))
  else if name = chars "table" then some (.nonText (mappingSyn "Reference"))
  else if name = chars "hd" then some (.nonText (mappingSyn "Reference"))
  else if name = chars "column" then some (.nonText (mappingSyn "Reference"))
  else if name = chars "fn" then some (.nonText (mappingSyn "Reference"))
  else if name = chars "code" then some .code
  else if name = chars "uchar" then some (.nonText (mappingSyn "UnicodeChar"))
  else if name = chars "br" then some (.nonText (mappingSyn "Break"))
  else if name = chars "icon" then some (.nonText (mappingSyn "Icon"))
  else if name = chars "m" then some (.nonText (mappingSyn "Math"))
  else if name = chars "raw" then some (.nonText (mappingSyn "Raw"))
  else none

/-- `parseHrefTag(tag, context)` of `inline-parsers.js`. -/
def parseHrefTagB (tag : Tag) (ctx : Context) : Except PErr TxtNode := do
  let node := createInlineNodeB (mappingSyn "Href") tag.fullText ctx
  let pieces := splitCommaSpace2 tag.contentRaw
  let url := pieces.headD []
  let (label, labelOffset) ←
    if _hp : pieces.length = 2 then do
      let label := pieces.getD 1 []
      match indexOfStrFrom tag.contentRaw label url.length with
      | none => Except.error PErr.assertFail
      | some k => pure (label, tag.contentIndex + k)
    else pure (url, tag.contentIndex)
  let strContext := offsetContext ctx labelOffset
  let strNode := createStrNode label strContext
  pure (node.withChildren [strNode])

/-- `parseRubyTag(tag, context)` of `inline-parsers.js`; the `rubyText`
attribute is not recorded (no claim mentions it).  The parser asserts
that the content splits into exactly two pieces. -/
def parseRubyTagB (tag : Tag) (ctx : Context) : Except PErr TxtNode := do
  let node := createInlineNodeB (mappingSyn "Ruby") tag.fullText ctx
  let pieces := splitCommaSpace2 tag.contentRaw
  if pieces.length = 2 then
    let rubyBase := pieces.headD []
    let strNode := createStrNode rubyBase ctx
    pure (node.withChildren [strNode])
  else .error .assertFail

/-- Apply an `InlineParsers` entry of `inline-parsers.js` to a tag. -/
def runInlineParserB (k : InlineParserKind) (tag : Tag) (ctx : Context) :
    Except PErr TxtNode :=
  match k with
  | .textTag ty =>
    let node := createInlineNodeB ty tag.fullText ctx
    let strContext := offsetContext ctx tag.contentIndex
    let strNode := createStrNode tag.contentRaw strContext
    .ok (node.withChildren [strNode])
  | .ruby => parseRubyTagB tag ctx
  | .href => parseHrefTagB tag ctx
  | .code =>
    let node := createInlineNodeB (mappingSyn "Code") tag.fullText ctx
    .ok (node.withValue (unescapeValue tag.contentRaw ctx))
  | .nonText ty => .ok (createInlineNodeB ty tag.fullText ctx)

/-- `parseText(text, context)` of `inline-parsers.js`: repeatedly locate
the next inline tag, emit a Str node for any preceding text, apply the
tag's parser when its name is known (emitting nothing otherwise), and
advance the context past the full matched text. -/
def parseTextBGo : Nat → JStr → Context → Except PErr (List TxtNode)
  | 0, _, _ => .ok []
  | fuel + 1, text, ctx =>
  match findInlineTag text with
  | none =>
    if text.length ≠ 0 then .ok [createStrNode text ctx] else .ok []
  | some tag => do
    let (preNodes, ctx1) :=
      if tag.precedingText ≠ [] then
        ([createStrNode tag.precedingText ctx], offsetContext ctx tag.precedingText.length)
      else ([], ctx)
    let tagNodes ←
      match InlineParsersB tag.name with
      | some k => do
        let n ← runInlineParserB k tag (contextNeedsUnescapeBraces ctx1)
        pure [n]
      | none => pure ([] : List TxtNode)
    let rest ← parseTextBGo fuel tag.followingText (offsetContext ctx1 tag.fullText.length)
    pure (preNodes ++ tagNodes ++ rest)

/-- The inline parser of pipeline B.  Every iteration consumes at least
the matched tag text, so `text.length + 1` units of fuel always suffice
(`findInlineTag_following_lt`). -/
def parseTextB (text : JStr) (ctx : Context) : Except PErr (List TxtNode) :=
  parseTextBGo (text.length + 1) text ctx

/-- `parseLine(line)` of `inline-parsers.js`: a comment-flagged line
yields a single Comment node, any other line is inline-parsed. -/
def parseLineB (line : Line) : Except PErr (List TxtNode) :=
  if line.isComment then .ok [createCommentNodeFromLine line]
  else parseTextB line.text (contextFromLine line 0)

/-! ### The latest `block-parsers.js` generation -/

/-- The transient `Block` record of `chunk-parsers.js`: block name,
parsed arguments and the underlying chunk. -/
structure BlockB where
  name : JStr
  args : List Arg
  chunk : Chunk

/-- `createNodeFromLinesInChunk(type, lines, chunk)` of `parser-utils`:
span a run of lines inside a chunk, slicing the raw text out of the
chunk's `raw`. -/
def createNodeFromLinesInChunk (type : String) (lines : List Line) (chunk : Chunk) :
    TxtNode :=
  let firstLine := lines.head?.getD dummyLine
  let lastLine := lines.getLast?.getD dummyLine
  let chunkStartIndex := (chunk.lines.head?.getD dummyLine).startIndex
  let startIndex := firstLine.startIndex
  let endIndex := lastLine.startIndex + lastLine.text.length
  let text := jsSlice chunk.raw (startIndex - chunkStartIndex) (endIndex - chunkStartIndex)
  .mk type text startIndex endIndex firstLine.lineNumber 0 lastLine.lineNumber
    lastLine.text.length none []

/-- `createNodeFromChunk(chunk, type)` of `parser-utils` (pipeline B). -/
def createNodeFromChunkB (chunk : Chunk) (type : Option String) : TxtNode :=
  createNodeFromLinesInChunk (type.getD (mappingSyn (chunkTypeName chunk.type)))
    chunk.lines chunk

/-- `parseBlockArg(type, blockArg, line)` of the latest `block-parsers.js`
(part of the source only as an unnamed fragment): parse one block
argument with bracket unescaping enabled. -/
def parseBlockArgLatest (type : String) (blockArg : Option Arg) (line : Line) :
    Except PErr (Option TxtNode) :=
  match blockArg with
  | none => .error .undefinedAccess
  | some arg =>
    if arg.value = [] then .ok none
    else do
      let blockArgContext := contextNeedsUnescapeBrackets (contextFromLine line arg.startColumn)
      let argNode := createInlineNodeB type arg.value blockArgContext
      let children ← parseTextB arg.value blockArgContext
      .ok (some (argNode.withChildren children))

/-- Flush the paragraph buffer of `parseBlockWithContent`. -/
def flushParagraphB (chunk : Chunk) (lines : List Line) : Except PErr (List TxtNode) :=
  if lines.isEmpty then .ok []
  else do
    let paragraph := createNodeFromLinesInChunk (mappingSyn "Paragraph") lines chunk
    let children ← lines.foldlM (fun acc l => do pure (acc ++ (← parseLineB l))) []
    .ok [paragraph.withChildren children]

/-- `parseBlockWithContent(block, type)` of the latest `block-parsers.js`:
interior lines grouped into blank-line-separated paragraphs. -/
def parseBlockWithContentB (chunk : Chunk) (type : String) : Except PErr TxtNode := do
  let node := createNodeFromChunkB chunk (some type)
  let acc ← (interiorLines chunk).foldlM
    (fun (acc : List TxtNode × List Line) line => do
      if line.text = [] then
        let flushed ← flushParagraphB chunk acc.2
        pure (acc.1 ++ flushed, ([] : List Line))
      else pure (acc.1, acc.2 ++ [line])) (([] : List TxtNode), ([] : List Line))
  let flushed ← flushParagraphB chunk acc.2
  pure (node.withChildren (acc.1 ++ flushed))

/-- `parseTableContent(line)` of the latest `block-parsers.js`. -/
def parseTableContentB (line : Line) : Except PErr (List TxtNode) :=
  if line.isComment then .ok [createCommentNodeFromLine line]
  else if line.text ≠ [] ∧ line.text.all (fun c => c = '-') then .ok []
  else
    (tabRuns line.text 0).foldlM (fun acc (cell : Nat × JStr) => do
      let startColumn := cell.1
      let cellContent := cell.2
      let (cellContent, startColumn) :=
        if jsStartsWith (chars ".") cellContent then (cellContent.drop 1, startColumn + 1)
        else (cellContent, startColumn)
      if cellContent = [] then pure acc
      else do
        let context := contextFromLine line startColumn
        let cellNode := createInlineNodeB (mappingSyn "TableCell") cellContent context
        let children ← parseTextB cellContent context
        pure (acc ++ [cellNode.withChildren children])) []

/-- `parseTable(block)` of the latest `block-parsers.js`. -/
def parseTableB (block : BlockB) : Except PErr TxtNode := do
  let node := createNodeFromChunkB block.chunk (some (mappingSyn "Table"))
  let rows ← (interiorLines block.chunk).foldlM
    (fun acc line => do pure (acc ++ (← parseTableContentB line))) []
  pure (node.withChildren rows)

/-- `parseFootnote(block)` of the latest `block-parsers.js`. -/
def parseFootnoteB (block : BlockB) : Except PErr TxtNode := do
  let node := createNodeFromChunkB block.chunk (some (mappingSyn "Footnote"))
  let para ← parseBlockArgLatest (mappingSyn "Paragraph") (block.args.get? 1)
    (block.chunk.lines.head?.getD dummyLine)
  match para with
  | some p => pure (node.withChildren [p])
  | none => pure node

/-- `parseCodeBlock(block)` of the latest `block-parsers.js`: the node's
`value` is the interior body with comment lines dropped. -/
def parseCodeBlockB (block : BlockB) : Except PErr TxtNode := do
  let node := createNodeFromChunkB block.chunk (some (mappingSyn "CodeBlock"))
  let body := joinAll (((interiorLines block.chunk).filter (fun l => ¬ l.isComment)).map
    Line.raw)
  pure (node.withValue body)

/-- `parseImage(block)` of the latest `block-parsers.js`. -/
def parseImageB (block : BlockB) : Except PErr TxtNode :=
  pure (createNodeFromChunkB block.chunk (some (mappingSyn "Image")))

/-- `withCaption(captionIndex, blockParser)` of the latest
`block-parsers.js`: run the parser, then prepend an inline-parsed Caption
from the given argument when it exists and is nonempty. -/
def withCaption (captionIndex : Option Nat) (blockParser : BlockB → Except PErr TxtNode)
    (block : BlockB) : Except PErr TxtNode := do
  let node ← blockParser block
  match captionIndex with
  | none => pure node
  | some ci =>
    match block.args.get? ci with
    | none => pure node
    | some blockArg => do
      let caption ← parseBlockArgLatest (mappingSyn "Caption") (some blockArg)
        (block.chunk.lines.head?.getD dummyLine)
      match caption with
      | some cap => pure (node.withChildren (cap :: node.children))
      | none => pure node

/-- Lookup in `BlockParsers` of the latest `block-parsers.js`. -/
def BlockParsersLatest (name : JStr) : Option (BlockB → Except PErr TxtNode) :=
  if name = chars "table" then some (withCaption (some 1) parseTableB)
  else if name = chars "footnote" then some parseFootnoteB
  else if name = chars "quote" then some (fun b => parseBlockWithContentB b.chunk (mappingSyn "Quote"))
  else if name = chars "list" then some (withCaption (some 1) parseCodeBlockB)
  else if name = chars "listnum" then some (withCaption (some 1) parseCodeBlockB)
  else if name = chars "emlist" then some (withCaption (some 0) parseCodeBlockB)
  else if name = chars "emlistnum" then some (withCaption (some 0) parseCodeBlockB)
  else if name = chars "source" then some parseCodeBlockB
  else if name = chars "cmd" then some parseCodeBlockB
  else if name = chars "image" then some (withCaption (some 1) parseImageB)
  else if name = chars "indepimage" then some (withCaption (some 1) parseImageB)
  else if name = chars "numberlessimage" then some (withCaption (some 1) parseImageB)
  else if name = chars "graph" then some (withCaption (some 2) parseImageB)
  else if name = chars "imgtable" then some (withCaption (some 1) parseImageB)
  else if name = chars "lead" then some (fun b => parseBlockWithContentB b.chunk (mappingSyn "Lead"))
  else if name = chars "read" then some (fun b => parseBlockWithContentB b.chunk (mappingSyn "Lead"))
  else if name = chars "note" then some (withCaption (some 0) (fun b => parseBlockWithContentB b.chunk (mappingSyn "ShortColumn")))
  else if name = chars "memo" then some (withCaption (some 0) (fun b => parseBlockWithContentB b.chunk (mappingSyn "ShortColumn")))
  else if name = chars "tip" then some (withCaption (some 0) (fun b => parseBlockWithContentB b.chunk (mappingSyn "ShortColumn")))
  else if name = chars "info" then some (withCaption (some 0) (fun b => parseBlockWithContentB b.chunk (mappingSyn "ShortColumn")))
  else if name = chars "warning" then some (withCaption (some 0) (fun b => parseBlockWithContentB b.chunk (mappingSyn "ShortColumn")))
  else if name = chars "important" then some (withCaption (some 0) (fun b => parseBlockWithContentB b.chunk (mappingSyn "ShortColumn")))
  else if name = chars "caution" then some (withCaption (some 0) (fun b => parseBlockWithContentB b.chunk (mappingSyn "ShortColumn")))
  else if name = chars "notice" then some (withCaption (some 0) (fun b => parseBlockWithContentB b.chunk (mappingSyn "ShortColumn")))
  else none

/-- The exec loop over `/\[(.*?)\]/g` of `parseBlockArgs` in
`chunk-parsers.js`; identical to `parseArgsA` and repeated here because
the claim sources cite this generation. -/
def parseBlockArgsB (cs : JStr) (offset : Nat) : List Arg :=
  go (cs.length + 1) 0
where
  go : Nat → Nat → List Arg
    | 0, _ => []
    | fuel + 1, p =>
      match indexOfFrom '[' cs p with
      | none => []
      | some i =>
        match indexOfFrom ']' cs (i + 1) with
        | none => []
        | some j =>
          ⟨jsSubstr cs (i + 1) (j - (i + 1)), offset + i + 1⟩ :: go fuel (j + 1)

/-- `parseBlock(chunk)` of `chunk-parsers.js`: split the first line into
name and arguments, dispatch through `BlockParsers`, returning `null`
for an unknown block name. -/
def parseBlockB (chunk : Chunk) : Except PErr (Option TxtNode) :=
  let line := chunk.lines.head?.getD dummyLine
  if matchBlockOpen line.text then
    let name := blockNameOf line.text
    let args := parseBlockArgsB (line.text.drop (2 + name.length)) (2 + name.length)
    let block : BlockB := ⟨name, args, chunk⟩
    match BlockParsersLatest name with
    | none => .ok none
    | some parser => (parser block).map some
  else .error .regexFail

/-! ## Spec-modelled chunker with Comment support

The chunker tested by the repository's `chunker` test suite (with
`Comment` chunks and `isComment` flags) is not among the source files;
only its tests and its callers are.  It is modelled here from the spec. -/

/-- Modelled from the spec: rule 1 of §4.1 for the missing `chunker.js`.
A comment line never starts, ends or interrupts another chunk: with an
open chunk it is absorbed into it as a comment-flagged line; with no
open chunk it forms a Comment chunk of its own (one chunk per line, as
the repository's chunker test shows).  All other lines are classified
exactly as in `review-to-chunks.js`. -/
def parseLineSpec (st : CState) (line : Line) : CState :=
  if jsStartsWith (chars "#@") line.text then
    match st.current with
    | some c => ⟨st.finished, some (c.push { line with isComment := true })⟩
    | none =>
      ⟨st.finished ++ [⟨ChunkType.Comment, [{ line with isComment := true }], []⟩], none⟩
  else
    match st.current with
    | some c =>
      if c.type = ChunkType.Block then
        if jsStartsWith (chars "//\x7d") line.text then ⟨st.finished ++ [c.push line], none⟩
        else ⟨st.finished, some (c.push line)⟩
      else parseLineOpen st line
    | none => parseLineOpen st line

/-- Modelled from the spec: `parseAsChunks` of the missing `chunker.js`,
identical to `parseAsChunks` of `review-to-chunks.js` except for the
comment rule of `parseLineSpec`. -/
def parseAsChunksSpec (text : JStr) : Except PErr (List Chunk) :=
  match splitLines text with
  | [] => .error .nullLines
  | ls =>
    let lines := mkLines ls 0 1
    let st := lines.foldl parseLineSpec ⟨[], none⟩
    .ok (st.chunks.map (setChunkRaw ls))

/-- Modelled from the spec: the chunk-to-node dispatch of the newer
pipeline maps Comment chunks to no node at all (§4.2 lists no Comment
builder and §8 requires standalone comment lines to appear in no node's
raw); every other chunk builds a node spanning the chunk. -/
def chunkDispatchSpec (c : Chunk) : Option TxtNode :=
  if c.type = ChunkType.Comment then none
  else some (createNodeFromChunkB c none)

/-! ## Span-chain invariants of the chunkers

The chunks produced by one pass over the lines occupy strictly
increasing, pairwise disjoint line-number spans; every line left outside
all spans is a blank or comment line.  This section develops that
invariant for both `parseLineC` and `parseLineSpec`. -/

/-- Strictly increasing chain of chunk spans inside `(lo, hi]`. -/
def SpanChain : Nat → List Chunk → Nat → Prop
  | lo, [], hi => lo ≤ hi
  | lo, c :: rest, hi => lo < c.firstLN ∧ c.firstLN ≤ c.lastLN ∧ SpanChain c.lastLN rest hi

/-- Does the chunk's line span cover line number `n`? -/
def coversB (c : Chunk) (n : Nat) : Bool :=
  decide (c.firstLN ≤ n) && decide (n ≤ c.lastLN)

/-- Is line number `n` inside some chunk's span? -/
def coveredB (chunks : List Chunk) (n : Nat) : Bool :=
  chunks.any (fun c => coversB c n)

/-- The lines (starting at line number `n`) that some chunk's span
covers, concatenated. -/
def selectCovered (chunks : List Chunk) : List JStr → Nat → JStr
  | [], _ => []
  | l :: r, n => (if coveredB chunks n then l else []) ++ selectCovered chunks r (n + 1)

/-- A raw line that the chunker drops: blank, or a comment line. -/
def blankOrComment (l : JStr) : Bool :=
  stripLineEnd l = [] || jsStartsWith (chars "#@") (stripLineEnd l)

/-- The span text a chunk's `raw` is assigned from. -/
def rawOfSpan (ls : List JStr) (c : Chunk) : JStr :=
  joinAll ((ls.drop (c.firstLN - 1)).take (c.lastLN + 1 - c.firstLN))

/-- Chain invariant of a chunker state after `k` lines: the finished
chunks chain up to some `mid`, and the current chunk (if any) lies
strictly after `mid` and within the processed prefix. -/
def StChain (st : CState) (k : Nat) : Prop :=
  ∃ mid, SpanChain 0 st.finished mid ∧
    match st.current with
    | none => mid ≤ k
    | some c => mid < c.firstLN ∧ c.firstLN ≤ c.lastLN ∧ c.lastLN ≤ k

/-- Full chunker invariant after processing the first `k` lines of `ls`. -/
structure ChunkerInv (ls : List JStr) (k : Nat) (st : CState) : Prop where
  chain : StChain st k
  nonempty : ∀ c ∈ st.chunks, c.lines ≠ []
  uncovered : ∀ n, 1 ≤ n → n ≤ k → coveredB st.chunks n = false →
    blankOrComment (ls.getD (n - 1) []) = true

/-- Zero-gap zero-overlap coverage of `[a, b)`: the first node starts at
`a`, each node starts where the previous one stopped, and the last node
stops at `b` (an empty list covers only the empty range). -/
def rangeChainB : Nat → Nat → List TxtNode → Bool
  | a, b, [] => decide (a = b)
  | a, b, n :: rest => decide (a = n.rstart) && rangeChainB n.rstop b rest

/-- Every inline tag that `parseText` would encounter in `text` has a
known name (an entry in `InlineParsers`). -/
def allTagsKnownGo : Nat → JStr → Bool
  | 0, _ => true
  | fuel + 1, text =>
    match findInlineTag text with
    | none => true
    | some tag => (InlineParsersB tag.name).isSome && allTagsKnownGo fuel tag.followingText

/-- Fuel-closed form of `allTagsKnownGo` (cf. `parseTextB`). -/
def allTagsKnown (text : JStr) : Bool := allTagsKnownGo (text.length + 1) text

/-! ## Theorems -/

/-! ### Bounds of the scanning primitives -/

theorem matchLineAt_rest_lt (cs m r : JStr) (h : matchLineAt cs = some (m, r)) :
    r.length < cs.length := by
  induction cs generalizing m r with
  | nil => simp [matchLineAt] at h
  | cons c rest ih =>
    rw [matchLineAt] at h
    by_cases h1 : c = '\n'
    · rw [if_pos h1] at h
      cases h
      simp
    · rw [if_neg h1] at h
      by_cases h2 : c = '\r'
      · rw [if_pos h2] at h
        by_cases h3 : rest.head? = some '\n'
        · rw [if_pos h3] at h
          cases h
          have : rest.tail.length ≤ rest.length := by
            cases rest <;> simp
          simp only [List.length_cons]
          omega
        · rw [if_neg h3] at h
          simp at h
      · rw [if_neg h2] at h
        cases hm : matchLineAt rest with
        | some p =>
          obtain ⟨m0, r0⟩ := p
          have hlen := ih m0 r0 hm
          rw [hm] at h
          have h' : some (c :: m0, r0) = some (m, r) := h
          injection h' with h1
          injection h1 with h2 h3
          subst h3
          simp only [List.length_cons]
          omega
        | none =>
          rw [hm] at h
          have h' : (if rest = [] then some (([c] : JStr), ([] : JStr)) else none)
              = some (m, r) := h
          by_cases h3 : rest = []
          · rw [if_pos h3] at h'
            cases h'
            simp [h3]
          · rw [if_neg h3] at h'
            simp at h'

theorem findIdxFrom_bounds (p : Char → Bool) (cs : JStr) (start i : Nat)
    (h : findIdxFrom p cs start = some i) : start ≤ i ∧ i < cs.length := by
  induction cs generalizing start i with
  | nil => simp [findIdxFrom] at h
  | cons x xs ih =>
    match start with
    | 0 =>
      rw [findIdxFrom] at h
      by_cases hp : p x
      · rw [if_pos hp] at h
        cases h
        simp
      · rw [if_neg hp] at h
        cases hrec : findIdxFrom p xs 0 with
        | none => rw [hrec] at h; simp at h
        | some i0 =>
          rw [hrec] at h
          have h' : some (i0 + 1) = some i := h
          cases h'
          have := ih 0 i0 hrec
          constructor
          · omega
          · simp only [List.length_cons]; omega
    | start + 1 =>
      rw [findIdxFrom] at h
      cases hrec : findIdxFrom p xs start with
      | none => rw [hrec] at h; simp at h
      | some i0 =>
        rw [hrec] at h
        have h' : some (i0 + 1) = some i := h
        cases h'
        have := ih start i0 hrec
        constructor
        · omega
        · simp only [List.length_cons]; omega

theorem matchOpenerName_le (cs : JStr) (name : JStr)
    (h : matchOpenerName cs = some name) : name.length + 4 ≤ cs.length := by
  unfold matchOpenerName at h
  by_cases h0 : cs.take 2 = chars "@<"
  · rw [if_pos h0] at h
    simp only at h
    by_cases he : ((cs.drop 2).takeWhile isWordChar).isEmpty
    · rw [if_pos he] at h; simp at h
    · rw [if_neg he] at h
      by_cases hb : (((cs.drop 2)).drop ((cs.drop 2).takeWhile isWordChar).length).take 2
          = chars ">\x7b"
      · rw [if_pos hb] at h
        have hnm : (cs.drop 2).takeWhile isWordChar = name := by
          injection h
        rw [hnm] at hb
        have h0l : (cs.take 2).length = 2 := by rw [h0]; rfl
        have h2 : (((cs.drop 2).drop name.length).take 2).length = 2 := by rw [hb]; rfl
        have h3 := List.length_take 2 ((cs.drop 2).drop name.length)
        have h4 := List.length_drop name.length (cs.drop 2)
        have h5 := List.length_drop 2 cs
        have h6 := List.length_take 2 cs
        omega
      · rw [if_neg hb] at h; simp at h
  · rw [if_neg h0] at h; simp at h

theorem findOpener_le (cs : JStr) (mi : Nat) (name : JStr)
    (h : findOpener cs = some (mi, name)) : mi + name.length + 4 ≤ cs.length := by
  induction cs generalizing mi with
  | nil => simp [findOpener] at h
  | cons c rest ih =>
    rw [findOpener] at h
    cases hm : matchOpenerName (c :: rest) with
    | some nm =>
      rw [hm] at h
      have h' : some (0, nm) = some (mi, name) := h
      injection h' with h1
      injection h1 with h1 h2
      rw [← h1, ← h2]
      have := matchOpenerName_le _ _ hm
      omega
    | none =>
      rw [hm] at h
      cases hrec : findOpener rest with
      | none => rw [hrec] at h; simp at h
      | some p =>
        obtain ⟨mi0, nm0⟩ := p
        rw [hrec] at h
        have h' : some (mi0 + 1, nm0) = some (mi, name) := h
        injection h' with h1
        injection h1 with h1 h2
        subst h1; subst h2
        have := ih mi0 hrec
        simp only [List.length_cons]
        omega

theorem findTagA_bounds (cs : JStr) (mi : Nat) (name content : JStr)
    (h : findTagA cs = some (mi, name, content)) :
    mi + name.length + 4 + content.length + 1 ≤ cs.length := by
  unfold findTagA at h
  rw [Option.bind_eq_some] at h
  obtain ⟨mn, hop, h⟩ := h
  obtain ⟨mi0, nm0⟩ := mn
  rw [Option.map_eq_some'] at h
  obtain ⟨ci, hidx, h⟩ := h
  simp only at h
  injection h with h1 h2
  injection h2 with h2 h3
  rw [← h1, ← h2, ← h3]
  simp only at hidx
  have hb := findIdxFrom_bounds _ cs _ ci hidx
  have hcl2 : (jsSubstr cs (mi0 + nm0.length + 4) (ci - (mi0 + nm0.length + 4))).length
      = ci - (mi0 + nm0.length + 4) := by
    unfold jsSubstr
    have h5 := List.length_drop (mi0 + nm0.length + 4) cs
    simp only [List.length_take]
    omega
  omega

theorem scanCloseGo_bounds (cs : JStr) : ∀ (fuel fromIndex ci : Nat),
    scanCloseGo fuel cs fromIndex = some ci → fromIndex ≤ ci ∧ ci < cs.length := by
  intro fuel
  induction fuel with
  | zero =>
    intro fromIndex ci h
    simp [scanCloseGo] at h
  | succ fuel ih =>
    intro fromIndex ci h
    rw [scanCloseGo] at h
    cases hidx : indexOfFrom '\x7d' cs fromIndex with
    | none => rw [hidx] at h; simp at h
    | some ci0 =>
      rw [hidx] at h
      have hb := findIdxFrom_bounds _ cs fromIndex ci0 hidx
      have h' : (if ci0 = 0 then some ci0
          else if cs[ci0 - 1]? = some '\\' then scanCloseGo fuel cs (ci0 + 1) else some ci0)
          = some ci := h
      by_cases h0 : ci0 = 0
      · rw [if_pos h0] at h'
        injection h' with h'
        omega
      · rw [if_neg h0] at h'
        by_cases hesc : cs[ci0 - 1]? = some '\\'
        · rw [if_pos hesc] at h'
          have := ih (ci0 + 1) ci h'
          omega
        · rw [if_neg hesc] at h'
          injection h' with h'
          omega

theorem scanClose_bounds (cs : JStr) : ∀ fromIndex ci : Nat,
    scanClose cs fromIndex = some ci → fromIndex ≤ ci ∧ ci < cs.length :=
  fun fromIndex ci h => scanCloseGo_bounds cs _ fromIndex ci h

theorem findInlineTag_following_lt (cs : JStr) (tag : Tag)
    (h : findInlineTag cs = some tag) : tag.followingText.length < cs.length := by
  unfold findInlineTag at h
  rw [Option.bind_eq_some] at h
  obtain ⟨mn, hop, h⟩ := h
  obtain ⟨mi0, nm0⟩ := mn
  rw [Option.map_eq_some'] at h
  obtain ⟨ci, hscan, h⟩ := h
  simp only at hscan
  have hb := scanClose_bounds cs _ ci hscan
  subst h
  simp only [List.length_drop]
  omega

theorem spanChain_mono (lo : Nat) (cs : List Chunk) (hi hi' : Nat)
    (h : SpanChain lo cs hi) (hh : hi ≤ hi') : SpanChain lo cs hi' := by
  induction cs generalizing lo with
  | nil => simp only [SpanChain] at h ⊢; omega
  | cons c rest ih =>
    simp only [SpanChain] at h ⊢
    exact ⟨h.1, h.2.1, ih _ h.2.2⟩

theorem spanChain_snoc (lo : Nat) (cs : List Chunk) (mid : Nat) (c : Chunk)
    (h : SpanChain lo cs mid) (h1 : mid < c.firstLN) (h2 : c.firstLN ≤ c.lastLN) :
    SpanChain lo (cs ++ [c]) c.lastLN := by
  induction cs generalizing lo with
  | nil =>
    simp only [SpanChain] at h
    simp only [List.nil_append, SpanChain]
    exact ⟨by omega, h2, le_refl _⟩
  | cons d rest ih =>
    simp only [SpanChain] at h
    simp only [List.cons_append, SpanChain]
    exact ⟨h.1, h.2.1, ih _ h.2.2⟩

theorem spanChain_covered_gt (lo : Nat) (cs : List Chunk) (hi n : Nat)
    (h : SpanChain lo cs hi) (hc : coveredB cs n = true) : lo < n := by
  induction cs generalizing lo with
  | nil => simp [coveredB] at hc
  | cons c rest ih =>
    simp only [SpanChain] at h
    simp only [coveredB, List.any_cons, Bool.or_eq_true] at hc
    rcases hc with hc | hc
    · simp only [coversB, Bool.and_eq_true, decide_eq_true_eq] at hc
      omega
    · have := ih c.lastLN h.2.2 hc
      omega

theorem spanChain_covered_le (lo : Nat) (cs : List Chunk) (hi n : Nat)
    (h : SpanChain lo cs hi) (hc : coveredB cs n = true) : n ≤ hi := by
  induction cs generalizing lo with
  | nil => simp [coveredB] at hc
  | cons c rest ih =>
    simp only [SpanChain] at h
    simp only [coveredB, List.any_cons, Bool.or_eq_true] at hc
    rcases hc with hc | hc
    · simp only [coversB, Bool.and_eq_true, decide_eq_true_eq] at hc
      have h3 := h.2.2
      have : c.lastLN ≤ hi := by
        clear hc h ih
        induction rest generalizing c with
        | nil => simpa [SpanChain] using h3
        | cons d r ih2 =>
          simp only [SpanChain] at h3
          have := ih2 d (by
            have h4 := h3.2.2
            exact spanChain_mono _ _ _ _ h4 (le_refl _))
          omega
      omega
    · exact ih c.lastLN h.2.2 hc

/-- Pushing a line keeps a nonempty chunk's first line. -/
theorem push_firstLN (c : Chunk) (l : Line) (h : c.lines ≠ []) :
    (c.push l).firstLN = c.firstLN := by
  unfold Chunk.push Chunk.firstLN
  cases hl : c.lines with
  | nil => exact absurd hl h
  | cons x xs => simp

/-- Pushing a line sets the last line. -/
theorem push_lastLN (c : Chunk) (l : Line) : (c.push l).lastLN = l.lineNumber := by
  unfold Chunk.push Chunk.lastLN
  simp

theorem createChunk_firstLN (t : ChunkType) (l : Line) :
    (createChunk t l).firstLN = l.lineNumber := rfl

theorem createChunk_lastLN (t : ChunkType) (l : Line) :
    (createChunk t l).lastLN = l.lineNumber := rfl

theorem coveredB_append (cs ds : List Chunk) (n : Nat) :
    coveredB (cs ++ ds) n = (coveredB cs n || coveredB ds n) := by
  simp [coveredB, List.any_append]

theorem flushSt_chunks (st : CState) : (flushSt st).chunks = st.chunks := by
  simp [flushSt, CState.chunks]

/-! ### Invariant preservation for the five shapes a chunker step takes -/

theorem inv_step_same (ls : List JStr) (k : Nat) (st : CState)
    (hInv : ChunkerInv ls k st)
    (hline : blankOrComment (ls.getD k []) = true) : ChunkerInv ls (k + 1) st := by
  obtain ⟨⟨mid, hfin, hcur⟩, hne, hunc⟩ := hInv
  refine ⟨⟨mid, hfin, ?_⟩, hne, ?_⟩
  · cases hc : st.current with
    | none =>
      rw [hc] at hcur
      show mid ≤ k + 1
      exact Nat.le_succ_of_le hcur
    | some c =>
      rw [hc] at hcur
      show mid < c.firstLN ∧ c.firstLN ≤ c.lastLN ∧ c.lastLN ≤ k + 1
      exact ⟨hcur.1, hcur.2.1, Nat.le_succ_of_le hcur.2.2⟩
  · intro n h1 h2 h3
    by_cases hn : n ≤ k
    · exact hunc n h1 hn h3
    · have hn1 : n = k + 1 := by omega
      subst hn1
      simpa using hline

theorem inv_step_flush (ls : List JStr) (k : Nat) (st : CState)
    (hInv : ChunkerInv ls k st)
    (hline : blankOrComment (ls.getD k []) = true) :
    ChunkerInv ls (k + 1) (flushSt st) := by
  obtain ⟨⟨mid, hfin, hcur⟩, hne, hunc⟩ := hInv
  refine ⟨?_, ?_, ?_⟩
  · cases hc : st.current with
    | none =>
      rw [hc] at hcur
      refine ⟨mid, ?_, ?_⟩
      · simpa [flushSt, hc] using hfin
      · show mid ≤ k + 1
        exact Nat.le_succ_of_le hcur
    | some c =>
      rw [hc] at hcur
      refine ⟨c.lastLN, ?_, ?_⟩
      · have := spanChain_snoc 0 st.finished mid c hfin hcur.1 hcur.2.1
        simpa [flushSt, hc] using this
      · show c.lastLN ≤ k + 1
        exact Nat.le_succ_of_le hcur.2.2
  · intro c hc
    apply hne
    rw [← flushSt_chunks st]
    exact hc
  · intro n h1 h2 h3
    rw [flushSt_chunks] at h3
    by_cases hn : n ≤ k
    · exact hunc n h1 hn h3
    · have hn1 : n = k + 1 := by omega
      subst hn1
      simpa using hline

theorem inv_step_appendCur (ls : List JStr) (k : Nat) (st : CState) (c : Chunk) (line : Line)
    (hInv : ChunkerInv ls k st) (hc : st.current = some c)
    (hnum : line.lineNumber = k + 1) :
    ChunkerInv ls (k + 1) ⟨st.finished, some (c.push line)⟩ := by
  obtain ⟨⟨mid, hfin, hcur⟩, hne, hunc⟩ := hInv
  rw [hc] at hcur
  have hcm : c ∈ st.chunks := by simp [CState.chunks, hc]
  have hcne : c.lines ≠ [] := hne c hcm
  have hfirst : (c.push line).firstLN = c.firstLN := push_firstLN c line hcne
  have hlast : (c.push line).lastLN = line.lineNumber := push_lastLN c line
  refine ⟨⟨mid, hfin, ?_⟩, ?_, ?_⟩
  · show mid < (c.push line).firstLN ∧ (c.push line).firstLN ≤ (c.push line).lastLN ∧
      (c.push line).lastLN ≤ k + 1
    rw [hfirst, hlast, hnum]
    exact ⟨hcur.1, by omega, le_refl _⟩
  · intro d hd
    simp only [CState.chunks, Option.toList_some, List.mem_append, List.mem_singleton] at hd
    rcases hd with hd | hd
    · exact hne d (by simp [CState.chunks, hc, hd])
    · subst hd
      simp [Chunk.push]
  · intro n h1 h2 h3
    simp only [CState.chunks, Option.toList_some, coveredB_append] at h3
    rw [Bool.or_eq_false_iff] at h3
    have hcov : coversB (c.push line) n = false := by
      simpa [coveredB] using h3.2
    by_cases hn : n ≤ k
    · apply hunc n h1 hn
      simp only [CState.chunks, hc, Option.toList_some, coveredB_append]
      rw [Bool.or_eq_false_iff]
      refine ⟨h3.1, ?_⟩
      simp only [coveredB, List.any_cons, List.any_nil, Bool.or_false]
      simp only [coversB, hfirst, hlast, hnum] at hcov
      simp only [coversB]
      rw [Bool.and_eq_false_iff] at hcov ⊢
      rcases hcov with hcov | hcov
      · exact Or.inl hcov
      · simp only [decide_eq_false_iff_not] at hcov
        omega
    · exfalso
      have hn1 : n = k + 1 := by omega
      subst hn1
      simp only [coversB, hfirst, hlast, hnum, Bool.and_eq_false_iff,
        decide_eq_false_iff_not] at hcov
      rcases hcov with hcov | hcov
      · have : c.firstLN ≤ c.lastLN := hcur.2.1
        have : c.lastLN ≤ k := hcur.2.2
        omega
      · omega

theorem inv_step_appendClose (ls : List JStr) (k : Nat) (st : CState) (c : Chunk) (line : Line)
    (hInv : ChunkerInv ls k st) (hc : st.current = some c)
    (hnum : line.lineNumber = k + 1) :
    ChunkerInv ls (k + 1) ⟨st.finished ++ [c.push line], none⟩ := by
  have hstep := inv_step_appendCur ls k st c line hInv hc hnum
  obtain ⟨⟨mid, hfin, hcur⟩, hne, hunc⟩ := hstep
  have hcur' : mid < (c.push line).firstLN ∧ (c.push line).firstLN ≤ (c.push line).lastLN ∧
      (c.push line).lastLN ≤ k + 1 := hcur
  have hch : (⟨st.finished ++ [c.push line], none⟩ : CState).chunks
      = (⟨st.finished, some (c.push line)⟩ : CState).chunks := by
    simp [CState.chunks]
  refine ⟨?_, ?_, ?_⟩
  · refine ⟨(c.push line).lastLN, ?_, ?_⟩
    · exact spanChain_snoc 0 st.finished mid (c.push line) hfin hcur'.1 hcur'.2.1
    · show (c.push line).lastLN ≤ k + 1
      exact hcur'.2.2
  · intro d hd
    exact hne d (by rw [← hch]; exact hd)
  · intro n h1 h2 h3
    exact hunc n h1 h2 (by rw [hch] at h3; exact h3)

theorem inv_step_newCur (ls : List JStr) (k : Nat) (st : CState) (t : ChunkType) (line : Line)
    (hInv : ChunkerInv ls k st) (hnum : line.lineNumber = k + 1) :
    ChunkerInv ls (k + 1) ⟨(flushSt st).finished, some (createChunk t line)⟩ := by
  obtain ⟨⟨mid, hfin, hcur⟩, hne, hunc⟩ := hInv
  have hch : (⟨(flushSt st).finished, some (createChunk t line)⟩ : CState).chunks
      = st.chunks ++ [createChunk t line] := by
    simp [CState.chunks, flushSt]
  have hchain : ∃ mid', SpanChain 0 (flushSt st).finished mid' ∧ mid' ≤ k := by
    cases hc : st.current with
    | none =>
      rw [hc] at hcur
      exact ⟨mid, by simpa [flushSt, hc] using hfin, hcur⟩
    | some c =>
      rw [hc] at hcur
      refine ⟨c.lastLN, ?_, hcur.2.2⟩
      have := spanChain_snoc 0 st.finished mid c hfin hcur.1 hcur.2.1
      simpa [flushSt, hc] using this
  obtain ⟨mid', hfin', hmid'⟩ := hchain
  refine ⟨⟨mid', hfin', ?_⟩, ?_, ?_⟩
  · show mid' < (createChunk t line).firstLN ∧
      (createChunk t line).firstLN ≤ (createChunk t line).lastLN ∧
      (createChunk t line).lastLN ≤ k + 1
    rw [createChunk_firstLN, createChunk_lastLN, hnum]
    exact ⟨by omega, le_refl _, le_refl _⟩
  · intro d hd
    rw [hch] at hd
    rw [List.mem_append] at hd
    rcases hd with hd | hd
    · exact hne d hd
    · rw [List.mem_singleton] at hd
      subst hd
      simp [createChunk]
  · intro n h1 h2 h3
    rw [hch, coveredB_append, Bool.or_eq_false_iff] at h3
    by_cases hn : n ≤ k
    · exact hunc n h1 hn h3.1
    · exfalso
      have hn1 : n = k + 1 := by omega
      subst hn1
      have := h3.2
      simp only [coveredB, List.any_cons, List.any_nil, Bool.or_false, coversB,
        createChunk_firstLN, createChunk_lastLN, hnum, Bool.and_eq_false_iff,
        decide_eq_false_iff_not] at this
      omega

theorem inv_step_newFin (ls : List JStr) (k : Nat) (st : CState) (t : ChunkType) (line : Line)
    (hInv : ChunkerInv ls k st) (hnum : line.lineNumber = k + 1) :
    ChunkerInv ls (k + 1) ⟨(flushSt st).finished ++ [createChunk t line], none⟩ := by
  have hstep := inv_step_newCur ls k st t line hInv hnum
  obtain ⟨⟨mid, hfin, hcur⟩, hne, hunc⟩ := hstep
  have hcur' : mid < (createChunk t line).firstLN ∧
      (createChunk t line).firstLN ≤ (createChunk t line).lastLN ∧
      (createChunk t line).lastLN ≤ k + 1 := hcur
  have hch : (⟨(flushSt st).finished ++ [createChunk t line], none⟩ : CState).chunks
      = (⟨(flushSt st).finished, some (createChunk t line)⟩ : CState).chunks := by
    simp [CState.chunks]
  refine ⟨?_, ?_, ?_⟩
  · refine ⟨(createChunk t line).lastLN, ?_, ?_⟩
    · exact spanChain_snoc 0 (flushSt st).finished mid (createChunk t line) hfin
        hcur'.1 hcur'.2.1
    · show (createChunk t line).lastLN ≤ k + 1
      exact hcur'.2.2
  · intro d hd
    exact hne d (by rw [← hch]; exact hd)
  · intro n h1 h2 h3
    exact hunc n h1 h2 (by rw [hch] at h3; exact h3)

theorem currentIs_some (st : CState) (ty : ChunkType) (h : st.currentIs ty = true) :
    ∃ c, st.current = some c ∧ c.type = ty := by
  unfold CState.currentIs at h
  cases hc : st.current with
  | none => rw [hc] at h; simp at h
  | some c =>
    rw [hc] at h
    simp only [decide_eq_true_eq] at h
    exact ⟨c, rfl, h⟩

theorem inv_step_parseLineOpen (ls : List JStr) (k : Nat) (st : CState) (line : Line)
    (hInv : ChunkerInv ls k st) (hnum : line.lineNumber = k + 1)
    (htext : line.text = stripLineEnd (ls.getD k [])) :
    ChunkerInv ls (k + 1) (parseLineOpen st line) := by
  unfold parseLineOpen
  by_cases h1 : matchBlockOpen line.text
  · rw [if_pos h1]
    by_cases h2 : endsWithChar '\x7b' line.text
    · rw [if_pos h2]
      exact inv_step_newCur ls k st .Block line hInv hnum
    · rw [if_neg h2]
      exact inv_step_newFin ls k st .Block line hInv hnum
  · rw [if_neg h1]
    by_cases h2 : jsStartsWith (chars "=") line.text
    · rw [if_pos h2]
      exact inv_step_newFin ls k st .Heading line hInv hnum
    · rw [if_neg h2]
      by_cases h3 : matchUnordered line.text
      · rw [if_pos h3]
        by_cases h4 : st.currentIs ChunkType.UnorderedList
        · rw [if_pos h4]
          obtain ⟨c, hc, _⟩ := currentIs_some st _ h4
          rw [hc]
          exact inv_step_appendCur ls k st c line hInv hc hnum
        · rw [if_neg h4]
          exact inv_step_newCur ls k st .UnorderedList line hInv hnum
      · rw [if_neg h3]
        by_cases h5 : matchOrdered line.text
        · rw [if_pos h5]
          by_cases h6 : st.currentIs ChunkType.OrderedList
          · rw [if_pos h6]
            obtain ⟨c, hc, _⟩ := currentIs_some st _ h6
            rw [hc]
            exact inv_step_appendCur ls k st c line hInv hc hnum
          · rw [if_neg h6]
            exact inv_step_newCur ls k st .OrderedList line hInv hnum
        · rw [if_neg h5]
          by_cases h7 : matchDefinition line.text
          · rw [if_pos h7]
            by_cases h8 : st.currentIs ChunkType.DefinitionList
            · rw [if_pos h8]
              obtain ⟨c, hc, _⟩ := currentIs_some st _ h8
              rw [hc]
              exact inv_step_appendCur ls k st c line hInv hc hnum
            · rw [if_neg h8]
              exact inv_step_newCur ls k st .DefinitionList line hInv hnum
          · rw [if_neg h7]
            by_cases h9 : matchIndented line.text && st.currentIs ChunkType.DefinitionList
            · rw [if_pos h9]
              rw [Bool.and_eq_true] at h9
              obtain ⟨c, hc, _⟩ := currentIs_some st _ h9.2
              rw [hc]
              exact inv_step_appendCur ls k st c line hInv hc hnum
            · rw [if_neg h9]
              by_cases h10 : line.text = []
              · rw [if_pos h10]
                apply inv_step_flush ls k st hInv
                unfold blankOrComment
                rw [← htext, h10]
                simp
              · rw [if_neg h10]
                by_cases h11 : st.currentIs ChunkType.Paragraph
                · rw [if_pos h11]
                  obtain ⟨c, hc, _⟩ := currentIs_some st _ h11
                  rw [hc]
                  exact inv_step_appendCur ls k st c line hInv hc hnum
                · rw [if_neg h11]
                  exact inv_step_newCur ls k st .Paragraph line hInv hnum

theorem inv_step_parseLineC (ls : List JStr) (k : Nat) (st : CState) (line : Line)
    (hInv : ChunkerInv ls k st) (hnum : line.lineNumber = k + 1)
    (htext : line.text = stripLineEnd (ls.getD k [])) :
    ChunkerInv ls (k + 1) (parseLineC st line) := by
  unfold parseLineC
  by_cases hcomment : jsStartsWith (chars "#@") line.text
  · rw [if_pos hcomment]
    apply inv_step_same ls k st hInv
    unfold blankOrComment
    rw [← htext]
    rw [hcomment]
    simp
  · rw [if_neg hcomment]
    split
    · next c hc =>
      by_cases hb : c.type = ChunkType.Block
      · rw [if_pos hb]
        by_cases hclose : jsStartsWith (chars "//\x7d") line.text
        · rw [if_pos hclose]
          exact inv_step_appendClose ls k st c line hInv hc hnum
        · rw [if_neg hclose]
          exact inv_step_appendCur ls k st c line hInv hc hnum
      · rw [if_neg hb]
        exact inv_step_parseLineOpen ls k st line hInv hnum htext
    · exact inv_step_parseLineOpen ls k st line hInv hnum htext

theorem inv_step_parseLineSpec (ls : List JStr) (k : Nat) (st : CState) (line : Line)
    (hInv : ChunkerInv ls k st) (hnum : line.lineNumber = k + 1)
    (htext : line.text = stripLineEnd (ls.getD k [])) :
    ChunkerInv ls (k + 1) (parseLineSpec st line) := by
  unfold parseLineSpec
  by_cases hcomment : jsStartsWith (chars "#@") line.text
  · rw [if_pos hcomment]
    cases hc : st.current with
    | some c =>
      exact inv_step_appendCur ls k st c { line with isComment := true } hInv hc hnum
    | none =>
      have := inv_step_newFin ls k st .Comment { line with isComment := true } hInv hnum
      have hflush : (flushSt st).finished = st.finished := by
        simp [flushSt, hc]
      rw [hflush] at this
      have hcc : createChunk ChunkType.Comment { line with isComment := true }
          = ⟨ChunkType.Comment, [{ line with isComment := true }], []⟩ := rfl
      rw [hcc] at this
      exact this
  · rw [if_neg hcomment]
    split
    · next c hc =>
      by_cases hb : c.type = ChunkType.Block
      · rw [if_pos hb]
        by_cases hclose : jsStartsWith (chars "//\x7d") line.text
        · rw [if_pos hclose]
          exact inv_step_appendClose ls k st c line hInv hc hnum
        · rw [if_neg hclose]
          exact inv_step_appendCur ls k st c line hInv hc hnum
      · rw [if_neg hb]
        exact inv_step_parseLineOpen ls k st line hInv hnum htext
    · exact inv_step_parseLineOpen ls k st line hInv hnum htext

/-! ### Folding the invariant over a whole document -/

theorem chunker_inv_fold (step : CState → Line → CState)
    (hstep : ∀ ls k st line, ChunkerInv ls k st → line.lineNumber = k + 1 →
      line.text = stripLineEnd (ls.getD k []) → ChunkerInv ls (k + 1) (step st line))
    (ls : List JStr) :
    ∀ (rest : List JStr) (k idx : Nat) (st : CState),
      ChunkerInv ls k st → ls.drop k = rest →
      ChunkerInv ls (k + rest.length) (List.foldl step st (mkLines rest idx (k + 1))) := by
  intro rest
  induction rest with
  | nil =>
    intro k idx st hInv _
    simpa [mkLines] using hInv
  | cons l r ih =>
    intro k idx st hInv hdrop
    have hget : ls.getD k [] = l := by
      have h0 : ls[k]? = some l := by
        have : (ls.drop k)[0]? = some l := by rw [hdrop]; simp
        rwa [List.getElem?_drop, Nat.add_zero] at this
      simp [List.getD, h0]
    have hdrop' : ls.drop (k + 1) = r := by
      have : ls.drop (k + 1) = (ls.drop k).drop 1 := by
        rw [List.drop_drop, Nat.add_comm]
      rw [this, hdrop]
      rfl
    rw [mkLines]
    rw [List.foldl_cons]
    have hstep1 := hstep ls k st ⟨l, stripLineEnd l, k + 1, idx, false⟩ hInv rfl
      (by rw [hget])
    have := ih (k + 1) (idx + l.length) (step st ⟨l, stripLineEnd l, k + 1, idx, false⟩)
      hstep1 hdrop'
    have harith : k + 1 + r.length = k + (l :: r).length := by simp; omega
    rw [harith] at this
    have harg : (k + 1) + 1 = k + 1 + 1 := rfl
    simpa using this

theorem chunkerInv_initial (ls : List JStr) : ChunkerInv ls 0 ⟨[], none⟩ := by
  refine ⟨⟨0, ?_, ?_⟩, ?_, ?_⟩
  · simp [SpanChain]
  · show (0 : Nat) ≤ 0
    exact le_refl 0
  · intro c hc
    simp [CState.chunks] at hc
  · intro n h1 h2 _
    omega

theorem setChunkRaw_firstLN (ls : List JStr) (c : Chunk) :
    (setChunkRaw ls c).firstLN = c.firstLN := rfl

theorem setChunkRaw_lastLN (ls : List JStr) (c : Chunk) :
    (setChunkRaw ls c).lastLN = c.lastLN := rfl

theorem setChunkRaw_type (ls : List JStr) (c : Chunk) :
    (setChunkRaw ls c).type = c.type := rfl

theorem setChunkRaw_raw (ls : List JStr) (c : Chunk) :
    (setChunkRaw ls c).raw = rawOfSpan ls c := rfl

theorem coveredB_map_setRaw (ls : List JStr) (cs : List Chunk) (n : Nat) :
    coveredB (cs.map (setChunkRaw ls)) n = coveredB cs n := by
  induction cs with
  | nil => rfl
  | cons c rest ih =>
    simp only [List.map_cons, coveredB, List.any_cons] at ih ⊢
    rw [show coversB (setChunkRaw ls c) n = coversB c n from rfl]
    rw [show (List.any (List.map (setChunkRaw ls) rest) fun c => coversB c n)
      = (List.any rest fun c => coversB c n) from ih]

theorem spanChain_map_setRaw (ls : List JStr) (lo hi : Nat) (cs : List Chunk)
    (h : SpanChain lo cs hi) : SpanChain lo (cs.map (setChunkRaw ls)) hi := by
  induction cs generalizing lo with
  | nil => simpa [SpanChain] using h
  | cons c rest ih =>
    simp only [SpanChain, List.map_cons] at h ⊢
    exact ⟨h.1, h.2.1, ih _ h.2.2⟩

/-- Chain bound for a full state. -/
theorem stChain_spanChain (st : CState) (k : Nat) (h : StChain st k) :
    SpanChain 0 st.chunks k := by
  obtain ⟨mid, hfin, hcur⟩ := h
  cases hc : st.current with
  | none =>
    rw [hc] at hcur
    have : st.chunks = st.finished := by simp [CState.chunks, hc]
    rw [this]
    exact spanChain_mono _ _ _ _ hfin hcur
  | some c =>
    rw [hc] at hcur
    have : st.chunks = st.finished ++ [c] := by simp [CState.chunks, hc]
    rw [this]
    exact spanChain_mono _ _ _ _ (spanChain_snoc 0 st.finished mid c hfin hcur.1 hcur.2.1)
      hcur.2.2

/-- Invariant extraction for `parseAsChunks`. -/
theorem parseAsChunks_inv (text : JStr) (chunks : List Chunk)
    (h : parseAsChunks text = .ok chunks) :
    ∃ st : CState, ChunkerInv (splitLines text) (splitLines text).length st ∧
      chunks = st.chunks.map (setChunkRaw (splitLines text)) := by
  unfold parseAsChunks at h
  cases hls : splitLines text with
  | nil => rw [hls] at h; simp at h
  | cons l r =>
    rw [hls] at h
    have h' : Except.ok (((mkLines (l :: r) 0 1).foldl parseLineC
        ⟨[], none⟩).chunks.map (setChunkRaw (l :: r))) = Except.ok chunks := h
    injection h' with h'
    refine ⟨(mkLines (l :: r) 0 1).foldl parseLineC ⟨[], none⟩, ?_, ?_⟩
    · have := chunker_inv_fold parseLineC (fun ls k st line => inv_step_parseLineC ls k st line)
        (l :: r) (l :: r) 0 0 ⟨[], none⟩ (chunkerInv_initial _) (by simp)
      simpa using this
    · rw [← h']

/-- Invariant extraction for the spec-modelled `parseAsChunksSpec`. -/
theorem parseAsChunksSpec_inv (text : JStr) (chunks : List Chunk)
    (h : parseAsChunksSpec text = .ok chunks) :
    ∃ st : CState, ChunkerInv (splitLines text) (splitLines text).length st ∧
      chunks = st.chunks.map (setChunkRaw (splitLines text)) := by
  unfold parseAsChunksSpec at h
  cases hls : splitLines text with
  | nil => rw [hls] at h; simp at h
  | cons l r =>
    rw [hls] at h
    have h' : Except.ok (((mkLines (l :: r) 0 1).foldl parseLineSpec
        ⟨[], none⟩).chunks.map (setChunkRaw (l :: r))) = Except.ok chunks := h
    injection h' with h'
    refine ⟨(mkLines (l :: r) 0 1).foldl parseLineSpec ⟨[], none⟩, ?_, ?_⟩
    · have := chunker_inv_fold parseLineSpec
        (fun ls k st line => inv_step_parseLineSpec ls k st line)
        (l :: r) (l :: r) 0 0 ⟨[], none⟩ (chunkerInv_initial _) (by simp)
      simpa using this
    · rw [← h']

/-! ### Concatenating ordered disjoint spans -/

theorem selectCovered_nil (ls : List JStr) (n : Nat) : selectCovered [] ls n = [] := by
  induction ls generalizing n with
  | nil => rfl
  | cons x tl ih => simp [selectCovered, coveredB, ih]

theorem selectCovered_beyond (c : Chunk) (ls : List JStr) (n0 : Nat)
    (h : c.lastLN < n0) : selectCovered [c] ls n0 = [] := by
  induction ls generalizing n0 with
  | nil => rfl
  | cons x tl ih =>
    have hcov : coveredB [c] n0 = false := by
      simp only [coveredB, List.any_cons, List.any_nil, Bool.or_false, coversB,
        Bool.and_eq_false_iff, decide_eq_false_iff_not]
      omega
    simp only [selectCovered, hcov, if_false, List.nil_append]
    exact ih (n0 + 1) (by omega)

theorem selectCovered_split (c : Chunk) (rest : List Chunk) (ls : List JStr) (n0 : Nat)
    (hrest : ∀ n, coveredB rest n = true → c.lastLN < n) :
    selectCovered (c :: rest) ls n0 = selectCovered [c] ls n0 ++ selectCovered rest ls n0 := by
  induction ls generalizing n0 with
  | nil => rfl
  | cons x tl ih =>
    have hsplit : coveredB (c :: rest) n0 = (coveredB [c] n0 || coveredB rest n0) := by
      simp [coveredB]
    by_cases hA : coveredB [c] n0 = true
    · have hB : coveredB rest n0 = false := by
        by_contra hB
        rw [Bool.not_eq_false] at hB
        have h1 := hrest n0 hB
        simp only [coveredB, List.any_cons, List.any_nil, Bool.or_false, coversB,
          Bool.and_eq_true, decide_eq_true_eq] at hA
        omega
      simp only [selectCovered, hsplit, hA, hB, Bool.true_or, if_true, if_false,
        List.nil_append]
      rw [ih (n0 + 1)]
      simp [List.append_assoc]
    · rw [Bool.not_eq_true] at hA
      by_cases hB : coveredB rest n0 = true
      · have hempty : selectCovered [c] (x :: tl) n0 = [] :=
          selectCovered_beyond c (x :: tl) n0 (hrest n0 hB)
        rw [hempty]
        have hempty' : selectCovered [c] tl (n0 + 1) = [] :=
          selectCovered_beyond c tl (n0 + 1) (by have := hrest n0 hB; omega)
        simp only [selectCovered, hsplit, hA, hB, Bool.false_or, if_true, List.nil_append]
        rw [ih (n0 + 1), hempty']
        simp
      · rw [Bool.not_eq_true] at hB
        simp only [selectCovered, hsplit, hA, hB, Bool.false_or, if_false, List.nil_append]
        rw [ih (n0 + 1)]
        simp

theorem selectCovered_within (c : Chunk) (ls : List JStr) (n0 : Nat)
    (hfirst : c.firstLN ≤ n0) :
    selectCovered [c] ls n0 = joinAll (ls.take (c.lastLN + 1 - n0)) := by
  induction ls generalizing n0 with
  | nil => simp [selectCovered, joinAll]
  | cons x tl ih =>
    by_cases hn : n0 ≤ c.lastLN
    · have hcov : coveredB [c] n0 = true := by
        simp only [coveredB, List.any_cons, List.any_nil, Bool.or_false, coversB,
          Bool.and_eq_true, decide_eq_true_eq]
        omega
      simp only [selectCovered, hcov, if_true]
      rw [ih (n0 + 1) (by omega)]
      have harith : c.lastLN + 1 - n0 = (c.lastLN + 1 - (n0 + 1)) + 1 := by omega
      rw [harith]
      simp [joinAll]
    · have hbeyond := selectCovered_beyond c (x :: tl) n0 (by omega)
      rw [hbeyond]
      have harith : c.lastLN + 1 - n0 = 0 := by omega
      rw [harith]
      simp [joinAll]

theorem selectCovered_single (c : Chunk) (ls : List JStr)
    (h1 : 1 ≤ c.firstLN) : selectCovered [c] ls 1 = rawOfSpan ls c := by
  suffices hgen : ∀ (ls : List JStr) (n0 : Nat), n0 ≤ c.firstLN → 0 < n0 →
      selectCovered [c] ls n0
        = joinAll ((ls.drop (c.firstLN - n0)).take (c.lastLN + 1 - c.firstLN)) by
    exact hgen ls 1 h1 (by omega)
  intro ls
  induction ls with
  | nil =>
    intro n0 _ _
    simp [selectCovered, joinAll]
  | cons x tl ih =>
    intro n0 hle hpos
    by_cases heq : n0 = c.firstLN
    · rw [heq, selectCovered_within c (x :: tl) c.firstLN (le_refl _)]
      simp
    · have hlt : n0 < c.firstLN := by omega
      have hcov : coveredB [c] n0 = false := by
        simp only [coveredB, List.any_cons, List.any_nil, Bool.or_false, coversB,
          Bool.and_eq_false_iff, decide_eq_false_iff_not]
        omega
      simp only [selectCovered, hcov, if_false, List.nil_append]
      rw [ih (n0 + 1) (by omega) (by omega)]
      have harith : c.firstLN - n0 = (c.firstLN - (n0 + 1)) + 1 := by omega
      rw [harith]
      simp

theorem spanChain_join (ls : List JStr) (chunks : List Chunk) (lo hi : Nat)
    (h : SpanChain lo chunks hi) :
    joinAll (chunks.map (rawOfSpan ls)) = selectCovered chunks ls 1 := by
  induction chunks generalizing lo with
  | nil => simp [selectCovered_nil, joinAll]
  | cons c rest ih =>
    simp only [SpanChain] at h
    rw [selectCovered_split c rest ls 1
      (fun n hn => by
        have := spanChain_covered_gt c.lastLN rest hi n h.2.2 hn
        omega)]
    rw [selectCovered_single c ls (by omega)]
    simp only [List.map_cons, joinAll, List.flatten_cons]
    exact congrArg (fun z => rawOfSpan ls c ++ z) (ih c.lastLN h.2.2)

theorem spanChain_mem_first_gt (lo hi : Nat) (cs : List Chunk) (b : Chunk)
    (h : SpanChain lo cs hi) (hb : b ∈ cs) : lo < b.firstLN := by
  induction cs generalizing lo with
  | nil => simp at hb
  | cons c rest ih =>
    simp only [SpanChain] at h
    rw [List.mem_cons] at hb
    rcases hb with hb | hb
    · subst hb; exact h.1
    · have := ih c.lastLN h.2.2 hb
      omega

theorem spanChain_pairwise (lo hi : Nat) (cs : List Chunk) (h : SpanChain lo cs hi) :
    cs.Pairwise (fun a b => a.lastLN < b.firstLN) := by
  induction cs generalizing lo with
  | nil => exact List.Pairwise.nil
  | cons c rest ih =>
    simp only [SpanChain] at h
    exact List.Pairwise.cons
      (fun b hb => spanChain_mem_first_gt c.lastLN hi rest b h.2.2 hb)
      (ih _ h.2.2)

theorem selectCovered_map_setRaw (ls hay : List JStr) (cs : List Chunk) (n : Nat) :
    selectCovered (cs.map (setChunkRaw ls)) hay n = selectCovered cs hay n := by
  induction hay generalizing n with
  | nil => rfl
  | cons x tl ih =>
    simp only [selectCovered, coveredB_map_setRaw, ih]

/-! ### Properties of the escaped-brace scan -/

theorem findIdxFrom_found (p : Char → Bool) (cs : JStr) (start i : Nat)
    (h : findIdxFrom p cs start = some i) : ∃ x, cs[i]? = some x ∧ p x = true := by
  induction cs generalizing start i with
  | nil => simp [findIdxFrom] at h
  | cons x xs ih =>
    match start with
    | 0 =>
      rw [findIdxFrom] at h
      by_cases hp : p x
      · rw [if_pos hp] at h
        injection h with h
        subst h
        exact ⟨x, by simp, hp⟩
      · rw [if_neg hp] at h
        rw [Option.map_eq_some'] at h
        obtain ⟨i0, hrec, hi⟩ := h
        subst hi
        obtain ⟨y, hy, hpy⟩ := ih 0 i0 hrec
        exact ⟨y, by simpa using hy, hpy⟩
    | start + 1 =>
      rw [findIdxFrom] at h
      rw [Option.map_eq_some'] at h
      obtain ⟨i0, hrec, hi⟩ := h
      subst hi
      obtain ⟨y, hy, hpy⟩ := ih start i0 hrec
      exact ⟨y, by simpa using hy, hpy⟩

theorem findIdxFrom_min (p : Char → Bool) (cs : JStr) (start i : Nat)
    (h : findIdxFrom p cs start = some i) :
    ∀ j x, start ≤ j → j < i → cs[j]? = some x → p x = false := by
  induction cs generalizing start i with
  | nil => simp [findIdxFrom] at h
  | cons x xs ih =>
    match start with
    | 0 =>
      rw [findIdxFrom] at h
      by_cases hp : p x
      · rw [if_pos hp] at h
        injection h with h
        intro j y _ hj _
        omega
      · rw [if_neg hp] at h
        rw [Option.map_eq_some'] at h
        obtain ⟨i0, hrec, hi⟩ := h
        subst hi
        intro j y _ hj hy
        match j with
        | 0 =>
          simp only [List.getElem?_cons_zero] at hy
          injection hy with hy
          subst hy
          simpa using hp
        | j + 1 =>
          simp only [List.getElem?_cons_succ] at hy
          exact ih 0 i0 hrec j y (by omega) (by omega) hy
    | start + 1 =>
      rw [findIdxFrom] at h
      rw [Option.map_eq_some'] at h
      obtain ⟨i0, hrec, hi⟩ := h
      subst hi
      intro j y hj1 hj2 hy
      match j with
      | 0 => omega
      | j + 1 =>
        simp only [List.getElem?_cons_succ] at hy
        exact ih start i0 hrec j y (by omega) (by omega) hy

theorem scanCloseGo_found (cs : JStr) : ∀ (fuel fromIndex ci : Nat),
    scanCloseGo fuel cs fromIndex = some ci →
    cs[ci]? = some '\x7d' ∧ (ci = 0 ∨ ¬ cs[ci - 1]? = some '\\') := by
  intro fuel
  induction fuel with
  | zero => intro fromIndex ci h; simp [scanCloseGo] at h
  | succ fuel ih =>
    intro fromIndex ci h
    rw [scanCloseGo] at h
    cases hidx : indexOfFrom '\x7d' cs fromIndex with
    | none => rw [hidx] at h; simp at h
    | some ci0 =>
      rw [hidx] at h
      have h' : (if ci0 = 0 then some ci0
          else if cs[ci0 - 1]? = some '\\' then scanCloseGo fuel cs (ci0 + 1) else some ci0)
          = some ci := h
      obtain ⟨x, hx, hpx⟩ := findIdxFrom_found _ cs fromIndex ci0 hidx
      rw [decide_eq_true_eq] at hpx
      subst hpx
      by_cases h0 : ci0 = 0
      · rw [if_pos h0] at h'
        injection h' with h'
        subst h'
        exact ⟨hx, Or.inl h0⟩
      · rw [if_neg h0] at h'
        by_cases hesc : cs[ci0 - 1]? = some '\\'
        · rw [if_pos hesc] at h'
          exact ih (ci0 + 1) ci h'
        · rw [if_neg hesc] at h'
          injection h' with h'
          subst h'
          exact ⟨hx, Or.inr hesc⟩

theorem scanCloseGo_escaped (cs : JStr) : ∀ (fuel fromIndex ci : Nat),
    scanCloseGo fuel cs fromIndex = some ci →
    ∀ j, fromIndex ≤ j → j < ci → cs[j]? = some '\x7d' →
      0 < j ∧ cs[j - 1]? = some '\\' := by
  intro fuel
  induction fuel with
  | zero => intro fromIndex ci h; simp [scanCloseGo] at h
  | succ fuel ih =>
    intro fromIndex ci h
    rw [scanCloseGo] at h
    cases hidx : indexOfFrom '\x7d' cs fromIndex with
    | none => rw [hidx] at h; simp at h
    | some ci0 =>
      rw [hidx] at h
      have h' : (if ci0 = 0 then some ci0
          else if cs[ci0 - 1]? = some '\\' then scanCloseGo fuel cs (ci0 + 1) else some ci0)
          = some ci := h
      have hmin := findIdxFrom_min _ cs fromIndex ci0 hidx
      by_cases h0 : ci0 = 0
      · rw [if_pos h0] at h'
        injection h' with h'
        subst h'
        intro j hj1 hj2 hj3
        have := hmin j _ hj1 hj2 hj3
        simp at this
      · rw [if_neg h0] at h'
        by_cases hesc : cs[ci0 - 1]? = some '\\'
        · rw [if_pos hesc] at h'
          intro j hj1 hj2 hj3
          by_cases hj : j < ci0
          · have := hmin j _ hj1 hj hj3
            simp at this
          · by_cases hjeq : j = ci0
            · subst hjeq
              exact ⟨by omega, hesc⟩
            · exact ih (ci0 + 1) ci h' j (by omega) hj2 hj3
        · rw [if_neg hesc] at h'
          injection h' with h'
          subst h'
          intro j hj1 hj2 hj3
          have := hmin j _ hj1 hj2 hj3
          simp at this

theorem matchOpenerName_spec (cs : JStr) (name : JStr)
    (h : matchOpenerName cs = some name) :
    cs = (chars "@<") ++ name ++ (chars ">\x7b") ++ cs.drop (name.length + 4) := by
  have h' : (if cs.take 2 = chars "@<" then
      (if ((cs.drop 2).takeWhile isWordChar).isEmpty then none
       else if ((cs.drop 2).drop ((cs.drop 2).takeWhile isWordChar).length).take 2
           = chars ">\x7b" then
         some ((cs.drop 2).takeWhile isWordChar)
       else none)
    else none) = some name := h
  by_cases h0 : cs.take 2 = chars "@<"
  · rw [if_pos h0] at h'
    by_cases he : ((cs.drop 2).takeWhile isWordChar).isEmpty
    · rw [if_pos he] at h'; simp at h'
    · rw [if_neg he] at h'
      by_cases hb : ((cs.drop 2).drop ((cs.drop 2).takeWhile isWordChar).length).take 2
          = chars ">\x7b"
      · rw [if_pos hb] at h'
        have hnm : (cs.drop 2).takeWhile isWordChar = name := by injection h'
        rw [hnm] at hb
        have hsplit1 : cs = cs.take 2 ++ cs.drop 2 := (List.take_append_drop 2 cs).symm
        have hpre : name <+: cs.drop 2 := by
          rw [← hnm]; exact List.takeWhile_prefix _
        obtain ⟨t, ht⟩ := hpre
        have htt : t = (cs.drop 2).drop name.length := by
          have h2 := congrArg (List.drop name.length) ht
          rw [List.drop_left] at h2
          exact h2
        have hsplit2 : cs.drop 2 = name ++ ((cs.drop 2).drop name.length) := by
          rw [← htt]; exact ht.symm
        have hsplit3 : (cs.drop 2).drop name.length
            = (chars ">\x7b") ++ (((cs.drop 2).drop name.length).drop 2) := by
          conv =>
            left
            rw [← List.take_append_drop 2 ((cs.drop 2).drop name.length)]
          rw [hb]
        have hdrop : ((cs.drop 2).drop name.length).drop 2 = cs.drop (name.length + 4) := by
          rw [List.drop_drop, List.drop_drop]
          congr 1
          omega
        calc cs = cs.take 2 ++ cs.drop 2 := hsplit1
          _ = chars "@<" ++ cs.drop 2 := by rw [h0]
          _ = chars "@<" ++ (name ++ ((cs.drop 2).drop name.length)) := by rw [← hsplit2]
          _ = chars "@<" ++ (name ++ ((chars ">\x7b") ++ cs.drop (name.length + 4))) := by
              rw [← hdrop, ← hsplit3]
          _ = (chars "@<") ++ name ++ (chars ">\x7b") ++ cs.drop (name.length + 4) := by
              simp [List.append_assoc]
      · rw [if_neg hb] at h'; simp at h'
  · rw [if_neg h0] at h'; simp at h'

theorem findOpener_spec (cs : JStr) (mi : Nat) (name : JStr)
    (h : findOpener cs = some (mi, name)) :
    cs = cs.take mi ++ (chars "@<") ++ name ++ (chars ">\x7b")
      ++ cs.drop (mi + name.length + 4) := by
  induction cs generalizing mi with
  | nil => simp [findOpener] at h
  | cons c rest ih =>
    rw [findOpener] at h
    cases hm : matchOpenerName (c :: rest) with
    | some nm =>
      rw [hm] at h
      have h' : some (0, nm) = some (mi, name) := h
      injection h' with h'
      injection h' with h1 h2
      have hmi : mi = 0 := h1.symm
      subst hmi
      have hnm : nm = name := h2
      rw [hnm] at hm
      have := matchOpenerName_spec (c :: rest) name hm
      simpa using this
    | none =>
      rw [hm] at h
      cases hrec : findOpener rest with
      | none => rw [hrec] at h; simp at h
      | some p =>
        obtain ⟨mi0, nm0⟩ := p
        rw [hrec] at h
        have h' : some (mi0 + 1, nm0) = some (mi, name) := h
        injection h' with h'
        injection h' with h1 h2
        have hmi : mi = mi0 + 1 := h1.symm
        subst hmi
        have hnm : nm0 = name := h2
        rw [hnm] at hrec
        have hrest := ih mi0 hrec
        calc c :: rest
            = c :: (rest.take mi0 ++ (chars "@<") ++ name ++ (chars ">\x7b")
              ++ rest.drop (mi0 + name.length + 4)) := by rw [← hrest]
          _ = (c :: rest).take (mi0 + 1) ++ (chars "@<") ++ name ++ (chars ">\x7b")
              ++ (c :: rest).drop (mi0 + 1 + name.length + 4) := by
                simp only [List.take_succ_cons, List.cons_append]
                have hd : (c :: rest).drop (mi0 + 1 + name.length + 4)
                    = rest.drop (mi0 + name.length + 4) := by
                  have he : mi0 + 1 + name.length + 4 = (mi0 + name.length + 4) + 1 := by
                    omega
                  rw [he]
                  rfl
                rw [hd]

theorem findInlineTag_spec (cs : JStr) (tag : Tag)
    (h : findInlineTag cs = some tag) :
    cs = tag.precedingText ++ tag.fullText ++ tag.followingText ∧
    tag.fullText
      = (chars "@<") ++ tag.name ++ (chars ">\x7b") ++ tag.contentRaw ++ ['\x7d'] ∧
    (∀ j, tag.contentRaw[j]? = some '\x7d' →
      0 < j ∧ tag.contentRaw[j - 1]? = some '\\') := by
  unfold findInlineTag at h
  rw [Option.bind_eq_some] at h
  obtain ⟨mn, hop, h⟩ := h
  obtain ⟨mi, nm⟩ := mn
  rw [Option.map_eq_some'] at h
  obtain ⟨ci, hscan, htag⟩ := h
  simp only at hscan htag
  subst htag
  dsimp only
  have hb := scanClose_bounds cs _ ci hscan
  have hfound := scanCloseGo_found cs (cs.length + 1) _ ci hscan
  have hesc := scanCloseGo_escaped cs (cs.length + 1) _ ci hscan
  have hopspec := findOpener_spec cs mi nm hop
  have hmile : mi + nm.length + 4 ≤ ci := hb.1
  have hcilen : ci < cs.length := hb.2
  have hd : cs.drop mi
      = (chars "@<") ++ (nm ++ ((chars ">\x7b") ++ cs.drop (mi + nm.length + 4))) := by
    have h1 : cs = cs.take mi
        ++ ((chars "@<") ++ (nm ++ ((chars ">\x7b") ++ cs.drop (mi + nm.length + 4)))) := by
      conv =>
        left
        rw [hopspec]
      simp [List.append_assoc]
    have h2 := congrArg (List.drop mi) h1
    rw [List.drop_left' (by simp [List.length_take]; omega)] at h2
    exact h2
  refine ⟨?_, ?_, ?_⟩
  · show cs = cs.take mi ++ jsSubstr cs mi (ci - mi + 1) ++ cs.drop (ci + 1)
    simp only [jsSubstr]
    conv =>
      left
      rw [← List.take_append_drop mi cs]
      rw [← List.take_append_drop (ci - mi + 1) (cs.drop mi)]
    rw [List.drop_drop]
    have he : mi + (ci - mi + 1) = ci + 1 := by omega
    rw [he]
    simp [List.append_assoc]
  · show jsSubstr cs mi (ci - mi + 1) = _
    simp only [jsSubstr]
    have htail : (cs.drop (mi + nm.length + 4)).take (ci - (mi + nm.length + 4) + 1)
        = (cs.drop (mi + nm.length + 4)).take (ci - (mi + nm.length + 4)) ++ ['\x7d'] := by
      rw [List.take_succ]
      congr 1
      have hg : (cs.drop (mi + nm.length + 4))[ci - (mi + nm.length + 4)]? = cs[ci]? := by
        rw [List.getElem?_drop]
        congr 1
        omega
      rw [hg, hfound.1]
      rfl
    have harith : ci - mi + 1
        = (chars "@<").length
          + (nm.length + ((chars ">\x7b").length + (ci - (mi + nm.length + 4) + 1))) := by
      have e1 : (chars "@<").length = 2 := rfl
      have e2 : (chars ">\x7b").length = 2 := rfl
      omega
    rw [hd, harith, List.take_append, List.take_append, List.take_append, htail]
    simp [jsSubstr, List.append_assoc]
  · show ∀ j, (jsSubstr cs (mi + nm.length + 4) (ci - (mi + nm.length + 4)))[j]?
        = some '\x7d' →
      0 < j ∧ (jsSubstr cs (mi + nm.length + 4) (ci - (mi + nm.length + 4)))[j - 1]?
        = some '\\'
    simp only [jsSubstr]
    intro j hj
    have hjlen : j
        < ((cs.drop (mi + nm.length + 4)).take (ci - (mi + nm.length + 4))).length := by
      by_contra hge
      rw [List.getElem?_eq_none (by omega)] at hj
      exact absurd hj (by simp)
    have hjlt : j < ci - (mi + nm.length + 4) := by
      simp only [List.length_take, List.length_drop] at hjlen
      omega
    have hcsj : cs[mi + nm.length + 4 + j]? = some '\x7d' := by
      rw [List.getElem?_take, if_pos hjlt, List.getElem?_drop] at hj
      exact hj
    have hescj := hesc (mi + nm.length + 4 + j) (by omega) (by omega) hcsj
    have hjpos : 0 < j := by
      by_contra hj0
      have hj0' : j = 0 := by omega
      subst hj0'
      have hbs : cs[mi + nm.length + 3]? = some '\\' := by
        have he : mi + nm.length + 4 + 0 - 1 = mi + nm.length + 3 := by omega
        rw [← he]
        exact hescj.2
      have hbr : cs[mi + nm.length + 3]? = some '\x7b' := by
        have h1 : cs[mi + nm.length + 3]? = (cs.drop mi)[nm.length + 3]? := by
          rw [List.getElem?_drop]
          congr 1
        rw [h1, hd]
        have hle1 : (chars "@<").length ≤ nm.length + 3 := by
          have e0 : (chars "@<").length = 2 := rfl
          omega
        rw [List.getElem?_append_right hle1]
        have e1 : nm.length + 3 - (chars "@<").length = nm.length + 1 := by
          have e0 : (chars "@<").length = 2 := rfl
          omega
        rw [e1]
        rw [List.getElem?_append_right (by omega)]
        have e2 : nm.length + 1 - nm.length = 1 := by omega
        rw [e2]
        rw [List.getElem?_append_left (by decide)]
        rfl
      rw [hbr] at hbs
      simp at hbs
    refine ⟨hjpos, ?_⟩
    have hjm : j - 1 < ci - (mi + nm.length + 4) := by omega
    rw [List.getElem?_take, if_pos hjm, List.getElem?_drop]
    have he : mi + nm.length + 4 + (j - 1) = mi + nm.length + 4 + j - 1 := by omega
    rw [he]
    exact hescj.2


/-! ### Fuel irrelevance for the inline parser -/

theorem parseTextBGo_congr (fuel : Nat) : ∀ (fuel' : Nat) (text : JStr) (ctx : Context),
    text.length < fuel → text.length < fuel' →
    parseTextBGo fuel text ctx = parseTextBGo fuel' text ctx := by
  induction fuel with
  | zero =>
    intro fuel' text ctx h h'
    exact absurd h (Nat.not_lt_zero _)
  | succ fuel ih =>
    intro fuel' text ctx h h'
    cases fuel' with
    | zero => exact absurd h' (Nat.not_lt_zero _)
    | succ fuel' =>
      rw [parseTextBGo, parseTextBGo]
      cases hft : findInlineTag text with
      | none => rfl
      | some tag =>
        have hlt := findInlineTag_following_lt text tag hft
        have hrec : ∀ ctx2 : Context, parseTextBGo fuel tag.followingText ctx2
            = parseTextBGo fuel' tag.followingText ctx2 :=
          fun ctx2 => ih fuel' tag.followingText ctx2 (by omega) (by omega)
        simp only [hrec]

/-! ### Range coverage of the inline parser -/

theorem bind_eq_ok_iff {γ α β : Type} (e : Except γ α) (f : α → Except γ β) (b : β) :
    (e >>= f) = .ok b ↔ ∃ a, e = .ok a ∧ f a = .ok b := by
  cases e with
  | error err =>
    constructor
    · intro h
      exact Except.noConfusion h
    · rintro ⟨a, ha, _⟩
      exact Except.noConfusion ha
  | ok a =>
    constructor
    · intro h
      exact ⟨a, rfl, h⟩
    · rintro ⟨a', ha, hf⟩
      injection ha with ha
      subst ha
      exact hf

theorem createStrNode_range (raw : JStr) (ctx : Context) :
    (createStrNode raw ctx).rstart = ctx.startIndex ∧
    (createStrNode raw ctx).rstop = ctx.startIndex + raw.length :=
  ⟨rfl, rfl⟩

theorem runInlineParserB_range (k : InlineParserKind) (tag : Tag) (ctx : Context)
    (n : TxtNode) (h : runInlineParserB k tag ctx = .ok n) :
    n.rstart = ctx.startIndex ∧ n.rstop = ctx.startIndex + tag.fullText.length := by
  cases k with
  | textTag ty =>
    have h' : TxtNode.withChildren (createInlineNodeB ty tag.fullText ctx)
        [createStrNode tag.contentRaw (offsetContext ctx tag.contentIndex)] = n := by
      injection h
    rw [← h']
    exact ⟨rfl, rfl⟩
  | ruby =>
    have h' : (if (splitCommaSpace2 tag.contentRaw).length = 2 then
        Except.ok (ε := PErr)
          ((createInlineNodeB (mappingSyn "Ruby") tag.fullText ctx).withChildren
            [createStrNode ((splitCommaSpace2 tag.contentRaw).headD []) ctx])
      else Except.error PErr.assertFail) = Except.ok n := h
    by_cases hp : (splitCommaSpace2 tag.contentRaw).length = 2
    · rw [if_pos hp] at h'
      injection h' with h'
      rw [← h']
      exact ⟨rfl, rfl⟩
    · rw [if_neg hp] at h'
      exact Except.noConfusion h'
  | href =>
    have h' : runInlineParserB InlineParserKind.href tag ctx = Except.ok n := h
    simp only [runInlineParserB, parseHrefTagB] at h'
    split at h'
    · split at h'
      · exact Except.noConfusion h'
      · injection h' with h'
        rw [← h']
        exact ⟨rfl, rfl⟩
    · injection h' with h'
      rw [← h']
      exact ⟨rfl, rfl⟩
  | code =>
    have h' : TxtNode.withValue (createInlineNodeB (mappingSyn "Code") tag.fullText ctx)
        (unescapeValue tag.contentRaw ctx) = n := by
      injection h
    rw [← h']
    exact ⟨rfl, rfl⟩
  | nonText ty =>
    have h' : createInlineNodeB ty tag.fullText ctx = n := by
      injection h
    rw [← h']
    exact ⟨rfl, rfl⟩

theorem findInlineTag_lengths (cs : JStr) (tag : Tag)
    (h : findInlineTag cs = some tag) :
    cs.length = tag.precedingText.length + tag.fullText.length
      + tag.followingText.length := by
  have h2 := congrArg List.length (findInlineTag_spec cs tag h).1
  have h3 : cs.length = tag.precedingText.length
      + (tag.fullText.length + tag.followingText.length) := by
    simpa [List.length_append] using h2
  omega

theorem rangeChainB_cons (a b : Nat) (n : TxtNode) (rest : List TxtNode) :
    rangeChainB a b (n :: rest) = true
      ↔ a = n.rstart ∧ rangeChainB n.rstop b rest = true := by
  simp [rangeChainB]

theorem parseTextBGo_chain : ∀ (fuel : Nat) (text : JStr) (ctx : Context)
    (nodes : List TxtNode),
    text.length < fuel →
    allTagsKnownGo fuel text = true →
    parseTextBGo fuel text ctx = .ok nodes →
    rangeChainB ctx.startIndex (ctx.startIndex + text.length) nodes = true := by
  intro fuel
  induction fuel with
  | zero =>
    intro text ctx nodes h
    exact absurd h (Nat.not_lt_zero _)
  | succ fuel ih =>
    intro text ctx nodes hlen hknown hparse
    rw [parseTextBGo] at hparse
    rw [allTagsKnownGo] at hknown
    cases hft : findInlineTag text with
    | none =>
      simp only [hft] at hparse
      by_cases h0 : text.length ≠ 0
      · rw [if_pos h0] at hparse
        injection hparse with hparse
        rw [← hparse]
        simp [rangeChainB, createStrNode_range]
      · rw [if_neg h0] at hparse
        injection hparse with hparse
        rw [← hparse]
        push_neg at h0
        simp [rangeChainB, h0]
    | some tag =>
      simp only [hft] at hparse
      simp only [hft] at hknown
      rw [Bool.and_eq_true] at hknown
      obtain ⟨hksome, hkrest⟩ := hknown
      have hlt := findInlineTag_following_lt text tag hft
      have hlens := findInlineTag_lengths text tag hft
      cases hk : InlineParsersB tag.name with
      | none =>
        rw [hk] at hksome
        simp at hksome
      | some k =>
        rw [hk] at hparse
        by_cases hpre : tag.precedingText = []
        · rw [if_neg (by simpa using hpre)] at hparse
          have hparse' :
              (runInlineParserB k tag (contextNeedsUnescapeBraces ctx) >>= fun n =>
                Except.ok [n] >>= fun y =>
                  parseTextBGo fuel tag.followingText
                      (offsetContext ctx tag.fullText.length) >>= fun rest =>
                    Except.ok (([] : List TxtNode) ++ y ++ rest))
              = Except.ok nodes := hparse
          rw [bind_eq_ok_iff] at hparse'
          obtain ⟨n, hrun, hA⟩ := hparse'
          rw [bind_eq_ok_iff] at hA
          obtain ⟨y, hy, hrest⟩ := hA
          injection hy with hy
          rw [bind_eq_ok_iff] at hrest
          obtain ⟨rest, hrec, hpure2⟩ := hrest
          injection hpure2 with hpure2
          rw [← hy] at hpure2
          have hchain := ih tag.followingText (offsetContext ctx tag.fullText.length)
            rest (by omega) hkrest hrec
          have hr := runInlineParserB_range k tag (contextNeedsUnescapeBraces ctx) n hrun
          rw [← hpure2]
          show rangeChainB ctx.startIndex (ctx.startIndex + text.length)
            ([] ++ [n] ++ rest) = true
          rw [show ([] ++ [n] ++ rest : List TxtNode) = n :: rest from rfl]
          rw [rangeChainB_cons]
          constructor
          · exact hr.1.symm
          · have hstop : n.rstop = ctx.startIndex + tag.fullText.length := hr.2
            have hb : ctx.startIndex + text.length
                = (offsetContext ctx tag.fullText.length).startIndex
                  + tag.followingText.length := by
              show _ = ctx.startIndex + tag.fullText.length + tag.followingText.length
              have hpre0 : tag.precedingText.length = 0 := by simp [hpre]
              omega
            rw [hstop, hb]
            exact hchain
        · rw [if_pos (by simpa using hpre)] at hparse
          have hparse' :
              (runInlineParserB k tag
                  (contextNeedsUnescapeBraces (offsetContext ctx tag.precedingText.length))
                  >>= fun n =>
                Except.ok [n] >>= fun y =>
                  parseTextBGo fuel tag.followingText
                      (offsetContext (offsetContext ctx tag.precedingText.length)
                        tag.fullText.length) >>= fun rest =>
                    Except.ok ([createStrNode tag.precedingText ctx] ++ y ++ rest))
              = Except.ok nodes := hparse
          rw [bind_eq_ok_iff] at hparse'
          obtain ⟨n, hrun, hA⟩ := hparse'
          rw [bind_eq_ok_iff] at hA
          obtain ⟨y, hy, hrest⟩ := hA
          injection hy with hy
          rw [bind_eq_ok_iff] at hrest
          obtain ⟨rest, hrec, hpure2⟩ := hrest
          injection hpure2 with hpure2
          rw [← hy] at hpure2
          have hchain := ih tag.followingText
            (offsetContext (offsetContext ctx tag.precedingText.length) tag.fullText.length)
            rest (by omega) hkrest hrec
          have hr := runInlineParserB_range k tag
            (contextNeedsUnescapeBraces (offsetContext ctx tag.precedingText.length)) n hrun
          rw [← hpure2]
          show rangeChainB ctx.startIndex (ctx.startIndex + text.length)
            ([createStrNode tag.precedingText ctx] ++ [n] ++ rest) = true
          rw [show ([createStrNode tag.precedingText ctx] ++ [n] ++ rest : List TxtNode)
            = createStrNode tag.precedingText ctx :: n :: rest from rfl]
          rw [rangeChainB_cons]
          constructor
          · exact ((createStrNode_range tag.precedingText ctx).1).symm
          · rw [rangeChainB_cons]
            constructor
            · rw [(createStrNode_range tag.precedingText ctx).2, hr.1]
              rfl
            · have hstop : n.rstop
                  = ctx.startIndex + tag.precedingText.length + tag.fullText.length := by
                rw [hr.2]
                rfl
              have hb : ctx.startIndex + text.length
                  = (offsetContext (offsetContext ctx tag.precedingText.length)
                      tag.fullText.length).startIndex + tag.followingText.length := by
                show _ = ctx.startIndex + tag.precedingText.length + tag.fullText.length
                  + tag.followingText.length
                omega
              rw [hstop, hb]
              exact hchain

/-! ### The finished list only grows, and `mkLines` drops -/

theorem mkLines_drop : ∀ (ls : List JStr) (idx k j : Nat),
    (mkLines ls idx k).drop j
      = mkLines (ls.drop j) (idx + (joinAll (ls.take j)).length) (k + j) := by
  intro ls
  induction ls with
  | nil =>
    intro idx k j
    simp [mkLines]
  | cons l r ih =>
    intro idx k j
    cases j with
    | zero => simp [joinAll]
    | succ j' =>
      rw [mkLines]
      rw [List.drop_succ_cons]
      rw [ih (idx + l.length) (k + 1) j']
      have h1 : (joinAll ((l :: r).take (j' + 1))).length
          = l.length + (joinAll (r.take j')).length := by
        simp [joinAll]
      congr 1
      · omega
      · omega

theorem parseLineOpen_finished_prefix (st : CState) (line : Line) :
    ∃ tail, (parseLineOpen st line).finished = st.finished ++ tail := by
  unfold parseLineOpen
  repeat' split
  all_goals
    first
    | exact ⟨st.current.toList, rfl⟩
    | exact ⟨[], (List.append_nil _).symm⟩
    | exact ⟨st.current.toList ++ [createChunk ChunkType.Block line],
        List.append_assoc _ _ _⟩
    | exact ⟨st.current.toList ++ [createChunk ChunkType.Heading line],
        List.append_assoc _ _ _⟩

theorem parseLineSpec_finished_prefix (st : CState) (line : Line) :
    ∃ tail, (parseLineSpec st line).finished = st.finished ++ tail := by
  unfold parseLineSpec
  repeat' split
  all_goals
    first
    | exact ⟨[], (List.append_nil _).symm⟩
    | exact ⟨_, rfl⟩
    | exact parseLineOpen_finished_prefix st line

theorem foldl_parseLineSpec_finished_prefix (lines : List Line) : ∀ st : CState,
    ∃ tail, (lines.foldl parseLineSpec st).finished = st.finished ++ tail := by
  induction lines with
  | nil =>
    intro st
    exact ⟨[], (List.append_nil _).symm⟩
  | cons l r ih =>
    intro st
    obtain ⟨t1, h1⟩ := parseLineSpec_finished_prefix st l
    obtain ⟨t2, h2⟩ := ih (parseLineSpec st l)
    refine ⟨t1 ++ t2, ?_⟩
    rw [List.foldl_cons, h2, h1, List.append_assoc]

/-! ## The claims -/

/-- C1 (counterexample): concatenating the chunk raws does not
reconstruct the input — the blank line of `"a\n\nb"` is covered by no
chunk, so the concatenation is `"a\nb"`. -/
theorem claim_C1_counterexample :
    ∃ chunks, parseAsChunks (chars "a\n\nb") = .ok chunks ∧
      joinAll (chunks.map Chunk.raw) ≠ chars "a\n\nb" := by
  refine ⟨_, rfl, ?_⟩
  decide

/-- C1 (amended): concatenating the raw text of the chunks returned by
`parseAsChunks`, in order, reconstructs exactly the input lines that lie
within some chunk's line span; every input line outside all spans is a
blank line or a comment line, and the chunk spans are strictly ordered
and pairwise disjoint, so each covered line is covered by exactly one
chunk. -/
theorem claim_C1_amended (text : JStr) (chunks : List Chunk)
    (h : parseAsChunks text = .ok chunks) :
    joinAll (chunks.map Chunk.raw) = selectCovered chunks (splitLines text) 1 ∧
    (∀ n, 1 ≤ n → n ≤ (splitLines text).length → coveredB chunks n = false →
      blankOrComment ((splitLines text).getD (n - 1) []) = true) ∧
    List.Pairwise (fun a b => a.lastLN < b.firstLN) chunks := by
  obtain ⟨st, hInv, hchunks⟩ := parseAsChunks_inv text chunks h
  subst hchunks
  have hchain := stChain_spanChain st _ hInv.chain
  refine ⟨?_, ?_, ?_⟩
  · rw [selectCovered_map_setRaw]
    have hmm : (st.chunks.map (setChunkRaw (splitLines text))).map Chunk.raw
        = st.chunks.map (rawOfSpan (splitLines text)) := by
      rw [List.map_map]
      rfl
    rw [hmm]
    exact spanChain_join _ _ _ _ hchain
  · intro n h1 h2 h3
    rw [coveredB_map_setRaw] at h3
    exact hInv.uncovered n h1 h2 h3
  · exact spanChain_pairwise _ _ _ (spanChain_map_setRaw (splitLines text) _ _ _ hchain)

/-- C1 (witness): the amended claim evaluated on a document with a
paragraph-interior comment line, a standalone comment is absent, plus a
blank line and further text. -/
theorem claim_C1_witness :
    ∃ chunks, parseAsChunks (chars "a\n#@# c\nb\n\nd") = .ok chunks ∧
      (joinAll (chunks.map Chunk.raw)
          = selectCovered chunks (splitLines (chars "a\n#@# c\nb\n\nd")) 1 ∧
        (∀ n, 1 ≤ n → n ≤ (splitLines (chars "a\n#@# c\nb\n\nd")).length →
          coveredB chunks n = false →
          blankOrComment ((splitLines (chars "a\n#@# c\nb\n\nd")).getD (n - 1) []) = true) ∧
        List.Pairwise (fun a b => a.lastLN < b.firstLN) chunks) :=
  ⟨_, rfl, claim_C1_amended _ _ rfl⟩

/-- C2 (counterexample): a document consisting only of the unterminated
block opener `//list[][]{` parses without any error into a Document tree
with a single CodeBlock child — no structural error is raised. -/
theorem claim_C2_counterexample :
    ∃ ast, parseA (chars "//list[][]\x7b") = .ok ast ∧ ast.type = "Document" ∧
      ast.children.map TxtNode.type = ["CodeBlock"] :=
  ⟨_, rfl, rfl, rfl⟩

/-- C2 (amended): an unterminated multi-line block does not make `parse`
raise a structural error: the chunker keeps the Block chunk open and
absorbs every remaining non-comment line up to end of input (there being
no `//}` line), and `parse` returns a Document tree containing the
block's node. -/
theorem claim_C2_amended :
    (∀ (st : CState) (c : Chunk) (rest : List Line),
      st.current = some c → c.type = ChunkType.Block →
      (∀ l ∈ rest, ¬ jsStartsWith (chars "//\x7d") l.text) →
      (List.foldl parseLineC st rest).current
        = some { c with lines := c.lines
            ++ rest.filter (fun l => ¬ jsStartsWith (chars "#@") l.text) }) ∧
    (∃ ast, parseA (chars "//list[][]\x7b\nlet x = 0;") = .ok ast ∧
      ast.type = "Document") := by
  constructor
  · intro st c rest
    induction rest generalizing st c with
    | nil =>
      intro hc _ _
      simp only [List.foldl_nil, List.filter_nil, List.append_nil]
      rw [hc]
    | cons l rest ih =>
      intro hc hty hnc
      rw [List.foldl_cons]
      by_cases hcm : jsStartsWith (chars "#@") l.text
      · have hstep : parseLineC st l = st := by
          unfold parseLineC
          rw [if_pos hcm]
        rw [hstep]
        have := ih st c hc hty (fun l hl => hnc l (List.mem_cons_of_mem _ hl))
        rw [this]
        simp [List.filter_cons, hcm]
      · have hstep : parseLineC st l = ⟨st.finished, some (c.push l)⟩ := by
          unfold parseLineC
          rw [if_neg hcm, hc]
          simp only [hty, if_true]
          rw [if_neg (by simpa using hnc l (List.mem_cons_self _ _))]
        rw [hstep]
        have := ih ⟨st.finished, some (c.push l)⟩ (c.push l) rfl (by simpa [Chunk.push] using hty)
          (fun l hl => hnc l (List.mem_cons_of_mem _ hl))
        rw [this]
        simp [Chunk.push, List.filter_cons, hcm]
  · exact ⟨_, rfl, rfl⟩

/-- C2 (witness): the chunker part of the amended claim applied to a
concrete open `//list` block followed by one body line. -/
theorem claim_C2_witness :
    (List.foldl parseLineC
        ⟨[], some ⟨ChunkType.Block, [⟨chars "//list[][]\x7b\n", chars "//list[][]\x7b", 1, 0,
          false⟩], []⟩⟩
        [⟨chars "x = 1", chars "x = 1", 2, 12, false⟩]).current
      = some ⟨ChunkType.Block,
          [⟨chars "//list[][]\x7b\n", chars "//list[][]\x7b", 1, 0, false⟩,
           ⟨chars "x = 1", chars "x = 1", 2, 12, false⟩], []⟩ := by
  have := claim_C2_amended.1
    ⟨[], some ⟨ChunkType.Block, [⟨chars "//list[][]\x7b\n", chars "//list[][]\x7b", 1, 0,
      false⟩], []⟩⟩
    ⟨ChunkType.Block, [⟨chars "//list[][]\x7b\n", chars "//list[][]\x7b", 1, 0, false⟩], []⟩
    [⟨chars "x = 1", chars "x = 1", 2, 12, false⟩]
    rfl rfl (by decide)
  rw [this]
  rfl

/-- C3: every Document tree `parse` returns satisfies the position
invariant: each non-Document node's `raw` equals the source slice of its
range, because the validation traverse checks exactly this for every
node and `parse` rethrows on any mismatch. -/
theorem claim_C3 (text : JStr) (ast : TxtNode) (h : parseA text = .ok ast) :
    ∀ n ∈ nodesIn ast, n.type ≠ "Document" → n.raw = jsSlice text n.rstart n.rstop := by
  unfold parseA at h
  cases hdoc : parseDocumentA text with
  | error e =>
    rw [hdoc] at h
    simp [Bind.bind, Except.bind] at h
  | ok ast0 =>
    rw [hdoc] at h
    have h' : (if validateAst text ast0 then Except.ok ast0
        else Except.error PErr.validationFail) = .ok ast := h
    by_cases hv : validateAst text ast0
    · rw [if_pos hv] at h'
      injection h' with h'
      subst h'
      intro n hn hnd
      have hval := List.all_eq_true.mp hv n hn
      unfold validNode at hval
      rw [Bool.or_eq_true] at hval
      rcases hval with hval | hval
      · exact absurd (of_decide_eq_true hval) hnd
      · exact of_decide_eq_true hval
    · rw [if_neg hv] at h'
      simp at h'

/-- C3 (witness): the position invariant of the returned tree, on a
concrete document. -/
theorem claim_C3_witness :
    ∃ ast, parseA (chars "= T\n\naaaa") = .ok ast ∧
      ∀ n ∈ nodesIn ast, n.type ≠ "Document" →
        n.raw = jsSlice (chars "= T\n\naaaa") n.rstart n.rstop :=
  ⟨_, rfl, claim_C3 _ _ rfl⟩

/-- C10: the empty input makes `text.match` return null, so `parse`
fails with a runtime error rather than returning a Document; every
successful parse presupposes a nonempty document. -/
theorem claim_C10 :
    parseA (chars "") = .error .nullLines ∧
    (∀ (text : JStr) (ast : TxtNode), parseA text = .ok ast → text ≠ []) := by
  constructor
  · rfl
  · intro text ast h hne
    subst hne
    have hz : parseA ([] : JStr) = .error .nullLines := rfl
    rw [hz] at h
    simp at h

/-- C10 (witness): a one-character document parses, and is nonempty by
the second part of the claim. -/
theorem claim_C10_witness :
    ∃ ast, parseA (chars "a") = .ok ast ∧ chars "a" ≠ [] :=
  ⟨_, rfl, claim_C10.2 (chars "a") _ rfl⟩

/-- C5: the inline-tag scan honors escaped close-braces.  (i) Every tag
returned by `findInlineTag` decomposes the text into preceding text, the
full tag `@<name>\x7bcontent\x7d` and following text, where every `\x7d`
inside the content is preceded by a backslash (so a `\x7d` escaped as
`\\\x7d` never terminates the tag, and the content extends to the first
unescaped `\x7d`).  (ii) When a tag opener is present but every later
close brace is escaped, `findInlineTag` finds no tag.  (iii) Text with no
tag is parsed by `parseText` as a single plain `Str` node, not an
error. -/
theorem claim_C5 :
    (∀ cs tag, findInlineTag cs = some tag →
      cs = tag.precedingText ++ tag.fullText ++ tag.followingText ∧
      tag.fullText
        = (chars "@<") ++ tag.name ++ (chars ">\x7b") ++ tag.contentRaw ++ ['\x7d'] ∧
      (∀ j, tag.contentRaw[j]? = some '\x7d' →
        0 < j ∧ tag.contentRaw[j - 1]? = some '\\')) ∧
    (∀ cs mi nm, findOpener cs = some (mi, nm) →
      (∀ j, j < cs.length → mi + nm.length + 4 ≤ j → cs[j]? = some '\x7d' →
        cs[j - 1]? = some '\\') →
      findInlineTag cs = none) ∧
    (∀ cs ctx, findInlineTag cs = none → cs ≠ [] →
      parseTextB cs ctx = .ok [createStrNode cs ctx]) := by
  refine ⟨fun cs tag h => findInlineTag_spec cs tag h, ?_, ?_⟩
  · intro cs mi nm hop hall
    cases hft : findInlineTag cs with
    | none => rfl
    | some tag =>
      exfalso
      unfold findInlineTag at hft
      rw [Option.bind_eq_some] at hft
      obtain ⟨mn, hop2, hft⟩ := hft
      obtain ⟨mi0, nm0⟩ := mn
      rw [Option.map_eq_some'] at hft
      obtain ⟨ci, hscan, _⟩ := hft
      simp only at hscan
      have heq : (mi0, nm0) = (mi, nm) := by
        rw [hop2] at hop
        injection hop
      injection heq with e1 e2
      subst e1
      subst e2
      have hfound := scanCloseGo_found cs (cs.length + 1) _ ci hscan
      have hb := scanClose_bounds cs _ ci hscan
      have hbs := hall ci hb.2 hb.1 hfound.1
      rcases hfound.2 with h0 | hne
      · omega
      · exact hne hbs
  · intro cs ctx hnone hne
    have hlen : cs.length ≠ 0 := by
      intro h0
      exact hne (List.length_eq_zero.mp h0)
    show parseTextBGo (cs.length + 1) cs ctx = .ok [createStrNode cs ctx]
    simp only [parseTextBGo, hnone]
    rw [if_pos hlen]

/-- C5 (witness): on `a@<b>\x7bc\\\x7dd\x7de` the tag extends past the
escaped brace to the unescaped one; with only an escaped close brace no
tag is found; and plain text becomes one Str node. -/
theorem claim_C5_witness :
    (chars "a@<b>\x7bc\\\x7dd\x7de"
      = (chars "a") ++ (chars "@<b>\x7bc\\\x7dd\x7d") ++ (chars "e")) ∧
    findInlineTag (chars "a@<b>\x7bc\\\x7dx") = none ∧
    parseTextB (chars "plain") ⟨0, 1, 0, false, false⟩
      = .ok [createStrNode (chars "plain") ⟨0, 1, 0, false, false⟩] := by
  refine ⟨?_, ?_, ?_⟩
  · have h := claim_C5.1 (chars "a@<b>\x7bc\\\x7dd\x7de")
      ⟨chars "b", chars "c\\\x7dd", 5, chars "@<b>\x7bc\\\x7dd\x7d", chars "a", chars "e"⟩
      rfl
    exact h.1
  · exact claim_C5.2.1 _ 1 (chars "b") rfl (by decide)
  · exact claim_C5.2.2 _ _ rfl (by decide)

/-- C7: a `//<word>...` line opens a multi-line Block chunk (kept as the
current chunk) exactly when its last character is `\x7b`; otherwise it is
emitted at once as a finished single-line Block chunk, whatever other
characters — including literal `\x7b` inside bracket arguments — the line
contains. -/
theorem claim_C7 :
    ∀ (st : CState) (line : Line), matchBlockOpen line.text = true →
      (endsWithChar '\x7b' line.text = true →
        parseLineOpen st line
          = ⟨(flushSt st).finished, some (createChunk ChunkType.Block line)⟩) ∧
      (endsWithChar '\x7b' line.text = false →
        parseLineOpen st line
          = ⟨(flushSt st).finished ++ [createChunk ChunkType.Block line], none⟩) := by
  intro st line hm
  have h1 : parseLineOpen st line
      = (if endsWithChar '\x7b' line.text
          then CState.mk (flushSt st).finished (some (createChunk ChunkType.Block line))
          else CState.mk ((flushSt st).finished ++ [createChunk ChunkType.Block line])
            none) := by
    unfold parseLineOpen
    rw [if_pos hm]
  constructor
  · intro he
    rw [h1, if_pos he]
  · intro he
    rw [h1, if_neg (by simp [he])]

/-- C7 (witness): the single-line footnote block whose bracket argument
contains a literal `\x7b` does not end in `\x7b`, so it is classified as
a finished single-line Block chunk, not as opening a multi-line body. -/
theorem claim_C7_witness :
    matchBlockOpen (chars "//footnote[example][@<href>\x7bhttp://example.com/\x7d]")
      = true ∧
    parseLineOpen ⟨[], none⟩
        ⟨chars "//footnote[example][@<href>\x7bhttp://example.com/\x7d]",
         chars "//footnote[example][@<href>\x7bhttp://example.com/\x7d]", 1, 0, false⟩
      = ⟨[createChunk ChunkType.Block
            ⟨chars "//footnote[example][@<href>\x7bhttp://example.com/\x7d]",
             chars "//footnote[example][@<href>\x7bhttp://example.com/\x7d]", 1, 0, false⟩],
         none⟩ := by
  refine ⟨by decide, ?_⟩
  have h := claim_C7 ⟨[], none⟩
    ⟨chars "//footnote[example][@<href>\x7bhttp://example.com/\x7d]",
     chars "//footnote[example][@<href>\x7bhttp://example.com/\x7d]", 1, 0, false⟩
    (by decide)
  exact h.2 (by decide)

/-- C8: unrecognized markup is non-fatal and yields no node.  A Block
chunk whose block name has no `BlockParsers` entry makes `parseBlock`
return null (`.ok none`); and on finding an inline tag whose name has no
`InlineParsers` entry, `parseText` advances past the full matched tag
text emitting no node for it — the preceding text still becomes a Str
node and parsing continues after the tag. -/
theorem claim_C8 :
    (∀ chunk : Chunk,
      matchBlockOpen (chunk.lines.head?.getD dummyLine).text = true →
      BlockParsersLatest (blockNameOf (chunk.lines.head?.getD dummyLine).text) = none →
      parseBlockB chunk = .ok none) ∧
    (∀ (text : JStr) (ctx : Context) (tag : Tag), findInlineTag text = some tag →
      InlineParsersB tag.name = none →
      parseTextB text ctx
        = (parseTextB tag.followingText
            (offsetContext
              (if tag.precedingText ≠ [] then offsetContext ctx tag.precedingText.length
               else ctx)
              tag.fullText.length)).map
          (fun rest =>
            (if tag.precedingText ≠ [] then [createStrNode tag.precedingText ctx]
             else []) ++ rest)) := by
  constructor
  · intro chunk h1 h2
    simp only [parseBlockB, h1, if_true, h2]
  · intro text ctx tag hft hunk
    have hlt := findInlineTag_following_lt text tag hft
    show parseTextBGo (text.length + 1) text ctx = _
    rw [parseTextBGo, hft]
    by_cases hpre : tag.precedingText ≠ []
    · simp only [if_pos hpre, hunk]
      have hfuel : parseTextB tag.followingText
          (offsetContext (offsetContext ctx tag.precedingText.length) tag.fullText.length)
          = parseTextBGo text.length tag.followingText
            (offsetContext (offsetContext ctx tag.precedingText.length)
              tag.fullText.length) :=
        parseTextBGo_congr _ _ _ _ (by omega) (by omega)
      rw [hfuel]
      cases hE : parseTextBGo text.length tag.followingText
          (offsetContext (offsetContext ctx tag.precedingText.length)
            tag.fullText.length) with
      | error e => rfl
      | ok rest => simp [Except.map]
    · simp only [if_neg hpre, hunk]
      have hfuel : parseTextB tag.followingText (offsetContext ctx tag.fullText.length)
          = parseTextBGo text.length tag.followingText
            (offsetContext ctx tag.fullText.length) :=
        parseTextBGo_congr _ _ _ _ (by omega) (by omega)
      rw [hfuel]
      cases hE : parseTextBGo text.length tag.followingText
          (offsetContext ctx tag.fullText.length) with
      | error e => rfl
      | ok rest => simp [Except.map]

/-- C8 (witness): the unknown block `//unknownname[]` yields no node and
no error, and the unknown inline tag `@<zzz>\x7bb\x7d` is skipped: the
text around it is still parsed, with nothing emitted for the tag. -/
theorem claim_C8_witness :
    parseBlockB ⟨ChunkType.Block,
        [⟨chars "//unknownname[]", chars "//unknownname[]", 1, 0, false⟩],
        chars "//unknownname[]"⟩ = .ok none ∧
    parseTextB (chars "a@<zzz>\x7bb\x7dc") ⟨0, 1, 0, false, false⟩
      = (parseTextB (chars "c")
          (offsetContext (offsetContext ⟨0, 1, 0, false, false⟩ 1) 9)).map
        (fun rest => [createStrNode (chars "a") ⟨0, 1, 0, false, false⟩] ++ rest) := by
  constructor
  · exact claim_C8.1 _ rfl rfl
  · have h := claim_C8.2 (chars "a@<zzz>\x7bb\x7dc") ⟨0, 1, 0, false, false⟩
      ⟨chars "zzz", chars "b", 7, chars "@<zzz>\x7bb\x7d", chars "a", chars "c"⟩ rfl rfl
    simpa using h

/-- C9: the block-argument scan does NOT honor backslash-escaped `]`.
On `//footnote[foo][See: [1\]]` the global regex `\[(.*?)\]` stops the
second argument at the first `]`, yielding the argument value
`See: [1\` — so the Footnote's Paragraph's Str child carries the value
`See: [1\`, not the `See: [1]` the specification promises. -/
theorem claim_C9 :
    parseBlockArgsB (chars "[foo][See: [1\\]]") 10
      = [⟨chars "foo", 11⟩, ⟨chars "See: [1\\", 16⟩] ∧
    ∃ node para str,
      parseBlockB ⟨ChunkType.Block,
          [⟨chars "//footnote[foo][See: [1\\]]",
            chars "//footnote[foo][See: [1\\]]", 1, 0, false⟩],
          chars "//footnote[foo][See: [1\\]]"⟩ = .ok (some node) ∧
      node.children = [para] ∧
      para.children = [str] ∧
      str.value = some (chars "See: [1\\") ∧
      chars "See: [1\\" ≠ chars "See: [1]" := by
  refine ⟨rfl, _, _, _, rfl, rfl, rfl, rfl, by decide⟩

/-- C6 (counterexample): an inline tag with an unknown name yields no
node while still consuming its text, so the node sequence returned by
`parseText` has a gap: on `a@<zzz>\x7bb\x7dc` the nodes are
`Str "a"` at `[0, 1)` and `Str "c"` at `[10, 11)`, and the range
`[1, 10)` of the unknown tag is covered by no node. -/
theorem claim_C6_counterexample :
    ∃ nodes, parseTextB (chars "a@<zzz>\x7bb\x7dc") ⟨0, 1, 0, false, false⟩
        = .ok nodes ∧
      rangeChainB 0 (0 + (chars "a@<zzz>\x7bb\x7dc").length) nodes = false := by
  refine ⟨_, rfl, ?_⟩
  decide

/-- C6 (amended): when every inline tag occurring in the single-line
text has a known name, the node sequence returned by `parseText` covers
the range from the context's start offset to the start offset plus the
text length with zero gaps and zero overlaps: each node starts where the
previous one stopped. -/
theorem claim_C6_amended (text : JStr) (ctx : Context) (nodes : List TxtNode)
    (hk : allTagsKnown text = true)
    (hp : parseTextB text ctx = .ok nodes) :
    rangeChainB ctx.startIndex (ctx.startIndex + text.length) nodes = true :=
  parseTextBGo_chain (text.length + 1) text ctx nodes (by omega) hk hp

/-- C6 (witness): on `x@<b>\x7by\x7dz`, whose only tag name `b` is
known, the returned nodes chain without gap from offset 5 to 5 plus the
text length. -/
theorem claim_C6_witness :
    allTagsKnown (chars "x@<b>\x7by\x7dz") = true ∧
    ∃ nodes, parseTextB (chars "x@<b>\x7by\x7dz") ⟨5, 2, 0, false, false⟩
        = .ok nodes ∧
      rangeChainB 5 (5 + (chars "x@<b>\x7by\x7dz").length) nodes = true :=
  ⟨by decide, _, rfl,
    claim_C6_amended (chars "x@<b>\x7by\x7dz") ⟨5, 2, 0, false, false⟩ _ (by decide) rfl⟩

/-- C4 (spec-modelled chunker): comment-line handling.  (i) A comment
line with no open chunk forms its own single-line Comment chunk appended
to the finished list.  (ii) A comment line with an open chunk (Paragraph
or Block alike) is absorbed into it as a comment-flagged line without
closing it.  (iii) A blank line whose open chunk is not a Block leaves
no open chunk, so a comment line after a blank line is standalone.
(iv) Comment chunks are dispatched to no node while every other chunk
yields one.  (v) In any parsed document, a standalone comment line (one
processed with no open chunk) is covered by no chunk other than its own
Comment chunk, so its text reaches no node's raw. -/
theorem claim_C4 :
    (∀ (st : CState) (line : Line), jsStartsWith (chars "#@") line.text = true →
      st.current = none →
      parseLineSpec st line
        = ⟨st.finished
            ++ [⟨ChunkType.Comment, [{ line with isComment := true }], []⟩], none⟩) ∧
    (∀ (st : CState) (line : Line) (c : Chunk),
      jsStartsWith (chars "#@") line.text = true → st.current = some c →
      parseLineSpec st line = ⟨st.finished, some (c.push { line with isComment := true })⟩) ∧
    (∀ (st : CState) (line : Line), line.text = [] →
      (∀ c, st.current = some c → c.type ≠ ChunkType.Block) →
      (parseLineSpec st line).current = none) ∧
    (∀ c : Chunk, (c.type = ChunkType.Comment → chunkDispatchSpec c = none) ∧
      (c.type ≠ ChunkType.Comment →
        chunkDispatchSpec c = some (createNodeFromChunkB c none))) ∧
    (∀ (text : JStr) (chunks : List Chunk) (n : Nat),
      parseAsChunksSpec text = .ok chunks →
      1 ≤ n → n ≤ (splitLines text).length →
      jsStartsWith (chars "#@") (stripLineEnd ((splitLines text).getD (n - 1) [])) = true →
      (((mkLines (splitLines text) 0 1).take (n - 1)).foldl parseLineSpec
        ⟨[], none⟩).current = none →
      ∀ c ∈ chunks, coversB c n = true → c.type = ChunkType.Comment) := by
  refine ⟨?_, ?_, ?_, ?_, ?_⟩
  · intro st line hcm hnone
    unfold parseLineSpec
    rw [if_pos hcm]
    simp only [hnone]
  · intro st line c hcm hsome
    unfold parseLineSpec
    rw [if_pos hcm]
    simp only [hsome]
  · intro st line hblank hnb
    have e1 : matchBlockOpen ([] : JStr) = false := rfl
    have e2 : jsStartsWith (chars "#@") ([] : JStr) = false := rfl
    have e3 : jsStartsWith (chars "=") ([] : JStr) = false := rfl
    have e4 : matchUnordered ([] : JStr) = false := rfl
    have e5 : matchOrdered ([] : JStr) = false := rfl
    have e6 : matchDefinition ([] : JStr) = false := rfl
    have e7 : matchIndented ([] : JStr) = false := rfl
    cases hcur : st.current with
    | none =>
      simp [parseLineSpec, parseLineOpen, hblank, hcur, e1, e2, e3, e4, e5, e6, e7, flushSt]
    | some c =>
      have hcb : ¬ c.type = ChunkType.Block := hnb c hcur
      simp [parseLineSpec, parseLineOpen, hblank, hcur, hcb, e1, e2, e3, e4, e5, e6, e7,
        flushSt]
  · intro c
    constructor
    · intro h
      unfold chunkDispatchSpec
      rw [if_pos h]
    · intro h
      unfold chunkDispatchSpec
      rw [if_neg h]
  · intro text chunks n hok hn1 hn2 hcm hstand c hc hcov
    cases hls : splitLines text with
    | nil =>
      rw [hls] at hn2
      simp at hn2
      omega
    | cons l r =>
      rw [hls] at hn2 hcm hstand
      unfold parseAsChunksSpec at hok
      rw [hls] at hok
      have h' : Except.ok (((mkLines (l :: r) 0 1).foldl parseLineSpec
          ⟨[], none⟩).chunks.map (setChunkRaw (l :: r))) = Except.ok chunks := hok
      injection h' with h'
      have hinvF := chunker_inv_fold parseLineSpec
        (fun ls k st line => inv_step_parseLineSpec ls k st line)
        (l :: r) (l :: r) 0 0 ⟨[], none⟩ (chunkerInv_initial _) (by simp)
      have hinv2 : ChunkerInv (l :: r) ((l :: r).length)
          ((mkLines (l :: r) 0 1).foldl parseLineSpec ⟨[], none⟩) := by
        simpa using hinvF
      have hfold : (mkLines (l :: r) 0 1).foldl parseLineSpec ⟨[], none⟩
          = ((mkLines (l :: r) 0 1).drop (n - 1)).foldl parseLineSpec
            (((mkLines (l :: r) 0 1).take (n - 1)).foldl parseLineSpec ⟨[], none⟩) := by
        conv =>
          left
          rw [← List.take_append_drop (n - 1) (mkLines (l :: r) 0 1)]
        rw [List.foldl_append]
      have hdropLines : (mkLines (l :: r) 0 1).drop (n - 1)
          = mkLines ((l :: r).drop (n - 1))
            (0 + (joinAll ((l :: r).take (n - 1))).length) (1 + (n - 1)) :=
        mkLines_drop (l :: r) 0 1 (n - 1)
      have hn' : 1 + (n - 1) = n := by omega
      rw [hn'] at hdropLines
      cases hdrop : (l :: r).drop (n - 1) with
      | nil =>
        rw [List.drop_eq_nil_iff] at hdrop
        omega
      | cons ln rest' =>
        have hln : (l :: r).getD (n - 1) [] = ln := by
          have h0 : ((l :: r).drop (n - 1))[0]? = some ln := by rw [hdrop]; simp
          rw [List.getElem?_drop] at h0
          rw [Nat.add_zero] at h0
          simp [List.getD, h0]
        rw [hdrop] at hdropLines
        rw [hln] at hcm
        have hcm2 : jsStartsWith (chars "#@")
            (Line.text ⟨ln, stripLineEnd ln, n,
              0 + (joinAll ((l :: r).take (n - 1))).length, false⟩) = true := hcm
        set st0 := ((mkLines (l :: r) 0 1).take (n - 1)).foldl parseLineSpec
          (⟨[], none⟩ : CState) with hst0def
        set cn := (⟨ChunkType.Comment,
          [⟨ln, stripLineEnd ln, n,
            0 + (joinAll ((l :: r).take (n - 1))).length, true⟩], []⟩ : Chunk) with hcndef
        have hstep : parseLineSpec st0
            ⟨ln, stripLineEnd ln, n,
              0 + (joinAll ((l :: r).take (n - 1))).length, false⟩
            = ⟨st0.finished ++ [cn], none⟩ := by
          unfold parseLineSpec
          rw [if_pos hcm2]
          simp only [hstand]
        rw [hdropLines] at hfold
        rw [show mkLines (ln :: rest')
              (0 + (joinAll ((l :: r).take (n - 1))).length) n
            = (⟨ln, stripLineEnd ln, n,
                0 + (joinAll ((l :: r).take (n - 1))).length, false⟩ : Line)
              :: mkLines rest'
                (0 + (joinAll ((l :: r).take (n - 1))).length + ln.length)
                (n + 1) from rfl] at hfold
        rw [List.foldl_cons] at hfold
        rw [hstep] at hfold
        obtain ⟨tail, htail⟩ := foldl_parseLineSpec_finished_prefix
          (mkLines rest'
            (0 + (joinAll ((l :: r).take (n - 1))).length + ln.length) (n + 1))
          ⟨st0.finished ++ [cn], none⟩
        set final := (mkLines (l :: r) 0 1).foldl parseLineSpec
          (⟨[], none⟩ : CState) with hfinaldef
        have hfinfin : final.finished = (st0.finished ++ [cn]) ++ tail := by
          rw [hfold]
          exact htail
        have hchdec : final.chunks = st0.finished ++ cn :: (tail ++ final.current.toList) := by
          show final.finished ++ final.current.toList = _
          rw [hfinfin]
          simp [List.append_assoc]
        have hpw0 := spanChain_pairwise 0 ((l :: r).length) final.chunks
          (stChain_spanChain final _ hinv2.chain)
        rw [hchdec] at hpw0
        rw [List.pairwise_append] at hpw0
        obtain ⟨_, hpw2, hcross⟩ := hpw0
        rw [List.pairwise_cons] at hpw2
        obtain ⟨hafter, _⟩ := hpw2
        rw [← h'] at hc
        obtain ⟨c0, hc0, hceq⟩ := List.mem_map.mp hc
        rw [← hceq] at hcov
        have hcov0 : coversB c0 n = true := hcov
        rw [← hceq, setChunkRaw_type]
        rw [hchdec] at hc0
        rcases List.mem_append.mp hc0 with hA | hB
        · exfalso
          have hrel := hcross c0 hA cn (List.mem_cons_self _ _)
          have hfn : cn.firstLN = n := rfl
          simp only [coversB, Bool.and_eq_true, decide_eq_true_eq] at hcov0
          omega
        · rcases List.mem_cons.mp hB with hceq2 | hB2
          · rw [hceq2]
          · exfalso
            have hrel := hafter c0 hB2
            have hlnn : cn.lastLN = n := rfl
            simp only [coversB, Bool.and_eq_true, decide_eq_true_eq] at hcov0
            omega

/-- C4 (witness): in `p\n\n#@# c\n\nq` line 3 is a standalone comment
between blank lines; every chunk covering line 3 is a Comment chunk. -/
theorem claim_C4_witness :
    ∃ chunks, parseAsChunksSpec (chars "p\n\n#@# c\n\nq") = .ok chunks ∧
      ∀ c ∈ chunks, coversB c 3 = true → c.type = ChunkType.Comment := by
  refine ⟨_, rfl, ?_⟩
  exact claim_C4.2.2.2.2 (chars "p\n\n#@# c\n\nq") _ 3 rfl (by decide) (by decide)
    (by decide) rfl

end ReviewPlugin
